import Mathlib

/-!
# Verification of the split-biller expense engine

Shallow embedding of `src/utils/expenseCalculator.js` (split allocation,
group balance aggregation, debt simplification) and of the statistics
computations in the user/group controllers, together with proofs of the
specified properties.

JavaScript numbers are modelled as rationals (`ℚ`).  The idiom
`parseFloat(x.toFixed(2))` is modelled by `round2`, rounding to the nearest
multiple of 1/100 with ties rounded up (the idealisation of `toFixed` on
exact decimal inputs).  A thrown `Error` is modelled by `Except.error`
carrying a structured error value; the payload recorded in the error value
mirrors the data interpolated into the JavaScript error message.
JavaScript objects used as keyed maps are modelled as ordered association
lists (`List (String × ℚ)`), matching `for … in` insertion-order iteration;
object keys are unique, which appears as `Nodup` hypotheses on key lists.
-/

namespace SplitBiller

/-- Model of `parseFloat(x.toFixed(2))`: round to two decimal places. -/
def round2 (q : ℚ) : ℚ := (round (q * 100) : ℤ) / 100

/-- `q` is an exact two-decimal (whole-cent) value. -/
def isCents (q : ℚ) : Prop := ∃ k : ℤ, q = k / 100

theorem isCents_round2 (q : ℚ) : isCents (round2 q) := ⟨round (q * 100), rfl⟩

theorem round2_eq_self {q : ℚ} (h : isCents q) : round2 q = q := by
  obtain ⟨k, rfl⟩ := h
  have h100 : ((k : ℚ) / 100) * 100 = (k : ℚ) := by
    field_simp
  rw [round2, h100, round_intCast]

theorem isCents_add {a b : ℚ} (ha : isCents a) (hb : isCents b) : isCents (a + b) := by
  obtain ⟨j, rfl⟩ := ha; obtain ⟨k, rfl⟩ := hb
  exact ⟨j + k, by push_cast; ring⟩

theorem isCents_sub {a b : ℚ} (ha : isCents a) (hb : isCents b) : isCents (a - b) := by
  obtain ⟨j, rfl⟩ := ha; obtain ⟨k, rfl⟩ := hb
  exact ⟨j - k, by push_cast; ring⟩

theorem isCents_neg {a : ℚ} (ha : isCents a) : isCents (-a) := by
  obtain ⟨j, rfl⟩ := ha
  exact ⟨-j, by push_cast; ring⟩

theorem isCents_min {a b : ℚ} (ha : isCents a) (hb : isCents b) : isCents (min a b) := by
  rcases min_choice a b with h | h <;> rw [h] <;> assumption

theorem isCents_abs {a : ℚ} (ha : isCents a) : isCents |a| := by
  rcases abs_choice a with h | h <;> rw [h]
  · exact ha
  · exact isCents_neg ha

/-- A positive whole-cent value is at least one cent. -/
theorem isCents_pos_ge {q : ℚ} (hc : isCents q) (hq : 0 < q) : 1 / 100 ≤ q := by
  obtain ⟨k, rfl⟩ := hc
  have hk : 0 < k := by
    by_contra hk
    push_neg at hk
    have : (k : ℚ) ≤ 0 := by exact_mod_cast hk
    nlinarith
  have : (1 : ℚ) ≤ (k : ℚ) := by exact_mod_cast hk
  linarith

/-- A nonnegative whole-cent value below one cent is zero. -/
theorem isCents_small_eq_zero {q : ℚ} (hc : isCents q) (h0 : 0 ≤ q)
    (h1 : q < 1 / 100) : q = 0 := by
  by_contra hq
  have := isCents_pos_ge hc (lt_of_le_of_ne h0 (Ne.symm hq))
  linarith

/-- Rounding to two decimals moves a value by at most half a cent. -/
theorem abs_round2_sub_le (q : ℚ) : |round2 q - q| ≤ 1 / 200 := by
  have h := abs_sub_round (q * 100)
  rw [round2]
  have : (round (q * 100) : ℚ) / 100 - q = ((round (q * 100) : ℚ) - q * 100) / 100 := by
    ring
  rw [this, abs_div]
  have h100 : |(100 : ℚ)| = 100 := by norm_num
  rw [h100, abs_sub_comm]
  linarith

/-! ## Data model of the Split Allocator (`expenseCalculator.js`) -/

/-- A computed split: `{ user, share }` as produced by `calculateSplits`. -/
structure Split where
  user : String
  share : ℚ
  deriving Repr, DecidableEq

/-- The `throw new Error(...)` values of the allocator, with the data that
the JavaScript message interpolates carried as payload. -/
inductive CalcError where
  /-- `'Invalid expense amount'` -/
  | invalidAmount
  /-- `'No users provided for split calculation'` -/
  | noUsers
  /-- `` `Invalid percentage for user ${userId}` `` -/
  | invalidPercentage (user : String)
  /-- `` `Total percentage (${totalPercentage}%) must equal 100%` `` -/
  | totalPercentageNot100 (total : ℚ)
  /-- `` `Invalid share amount for user ${userId}` `` -/
  | invalidShare (user : String)
  /-- `` `Total shares (${totalShares}) must equal expense amount (${amount})` `` -/
  | totalSharesNotAmount (total : ℚ)
  /-- `` `Invalid split type: ${splitType}` `` -/
  | invalidSplitType
  deriving Repr, DecidableEq

/-- `calculateEqualSplit(amount, users)`: each user gets
`parseFloat((amount / users.length).toFixed(2))`; the user at index 0
additionally absorbs the rounding difference
`amount - perUserAmount * users.length` (re-rounded) when it is nonzero. -/
def calculateEqualSplit (amount : ℚ) (users : List String) : List Split :=
  let perUserAmount := round2 (amount / users.length)
  match users with
  | [] => []
  | u0 :: rest =>
    let roundingDiff := amount - perUserAmount * (rest.length + 1)
    let firstShare :=
      if roundingDiff ≠ 0 then round2 (perUserAmount + roundingDiff) else perUserAmount
    ⟨u0, firstShare⟩ :: rest.map fun u => ⟨u, perUserAmount⟩

/-- The `for (const userId in splitDetails)` loop of
`calculatePercentageSplit`: accumulates `totalPercentage` and the pushed
splits, failing on a negative percentage. -/
def percLoop (amount : ℚ) : List (String × ℚ) → ℚ → List Split →
    Except CalcError (ℚ × List Split)
  | [], total, splits => .ok (total, splits)
  | (userId, percentage) :: rest, total, splits =>
    if percentage < 0 then .error (.invalidPercentage userId)
    else percLoop amount rest (total + percentage)
      (splits ++ [⟨userId, round2 (amount * percentage / 100)⟩])

/-- `calculatePercentageSplit(amount, splitDetails)`: per-key share
`parseFloat(((amount * percentage) / 100).toFixed(2))`, then the total
percentage is checked against 100 with tolerance 0.01. -/
def calculatePercentageSplit (amount : ℚ) (splitDetails : List (String × ℚ)) :
    Except CalcError (List Split) :=
  match percLoop amount splitDetails 0 [] with
  | .error e => .error e
  | .ok (totalPercentage, splits) =>
    if |totalPercentage - 100| > 1 / 100 then
      .error (.totalPercentageNot100 totalPercentage)
    else .ok splits

/-- The `for (const userId in splitDetails)` loop of `validateExactSplit`:
shares are pushed verbatim, failing on a negative share. -/
def exactLoop : List (String × ℚ) → ℚ → List Split →
    Except CalcError (ℚ × List Split)
  | [], total, splits => .ok (total, splits)
  | (userId, share) :: rest, total, splits =>
    if share < 0 then .error (.invalidShare userId)
    else exactLoop rest (total + share) (splits ++ [⟨userId, share⟩])

/-- `validateExactSplit(amount, splitDetails)`: shares taken verbatim; the
total is checked against `amount` with tolerance 0.01. -/
def validateExactSplit (amount : ℚ) (splitDetails : List (String × ℚ)) :
    Except CalcError (List Split) :=
  match exactLoop splitDetails 0 [] with
  | .error e => .error e
  | .ok (totalShares, splits) =>
    if |totalShares - amount| > 1 / 100 then
      .error (.totalSharesNotAmount totalShares)
    else .ok splits

/-- `calculateSplits(amount, splitType, users, splitDetails)`: validates the
amount and the users array, then dispatches on the split type string. -/
def calculateSplits (amount : ℚ) (splitType : String) (users : List String)
    (splitDetails : List (String × ℚ)) : Except CalcError (List Split) :=
  if amount ≤ 0 then .error .invalidAmount
  else if users = [] then .error .noUsers
  else
    match splitType with
    | "equal" => .ok (calculateEqualSplit amount users)
    | "percentage" => calculatePercentageSplit amount splitDetails
    | "exact" => validateExactSplit amount splitDetails
    | _ => .error .invalidSplitType

/-! ## Debt Simplifier (`simplifyDebts` in `expenseCalculator.js`) -/

/-- A settlement transaction `{ from, to, amount }` (`from` is a Lean
keyword, hence the field names `from_` and `to_`). -/
structure Txn where
  from_ : String
  to_ : String
  amount : ℚ
  deriving Repr, DecidableEq

/-- The creditor array: entries of `balances` whose 2-decimal rounding is
positive, carrying the rounded balance. -/
def creditorsOf (balances : List (String × ℚ)) : List (String × ℚ) :=
  balances.filterMap fun p =>
    if 0 < round2 p.2 then some (p.1, round2 p.2) else none

/-- The debtor array: entries of `balances` whose 2-decimal rounding is
negative, carrying the absolute value of the rounded balance. -/
def debtorsOf (balances : List (String × ℚ)) : List (String × ℚ) :=
  balances.filterMap fun p =>
    if round2 p.2 < 0 then some (p.1, |round2 p.2|) else none

/-- `arr.sort((a, b) => b.amount - a.amount)`: stable sort, descending by
amount. -/
def sortByAmountDesc (l : List (String × ℚ)) : List (String × ℚ) :=
  l.mergeSort fun a b => decide (b.2 ≤ a.2)

/-- The `while (debtors.length > 0 && creditors.length > 0)` loop of
`simplifyDebts`: settle `min` of the head amounts, record the transaction
when that minimum is positive, and drop a head once its residual falls
below 0.01. -/
def settleLoop : List (String × ℚ) → List (String × ℚ) → List Txn
  | [], _ => []
  | _ :: _, [] => []
  | c :: cs, d :: ds =>
    (if 0 < min d.2 c.2 then [⟨d.1, c.1, round2 (min d.2 c.2)⟩] else []) ++
    settleLoop
      (if c.2 - min d.2 c.2 < 1 / 100 then cs else (c.1, c.2 - min d.2 c.2) :: cs)
      (if d.2 - min d.2 c.2 < 1 / 100 then ds else (d.1, d.2 - min d.2 c.2) :: ds)
termination_by cs ds => cs.length + ds.length
decreasing_by
  rcases le_total d.2 c.2 with h | h
  · rw [min_eq_left h, dif_pos (show d.2 - d.2 < 1 / 100 by norm_num)]
    split <;> simp only [List.length_cons] <;> omega
  · rw [min_eq_right h, dif_pos (show c.2 - c.2 < 1 / 100 by norm_num)]
    split <;> simp only [List.length_cons] <;> omega

/-- `simplifyDebts(balances)`: partition into creditors and debtors on the
rounded balances, sort both descending, then run the greedy matching
loop. -/
def simplifyDebts (balances : List (String × ℚ)) : List Txn :=
  settleLoop (sortByAmountDesc (creditorsOf balances))
    (sortByAmountDesc (debtorsOf balances))

/-! ## Summation helpers -/

/-- Sum of `f` over a list. -/
def sumBy (l : List α) (f : α → ℚ) : ℚ := (l.map f).sum

/-- Total amount of a creditor/debtor list. -/
def amtSum (l : List (String × ℚ)) : ℚ := sumBy l Prod.snd

/-- Sum of the amounts of the entries of `l` keyed by `x`. -/
def entSum (l : List (String × ℚ)) (x : String) : ℚ :=
  sumBy l fun p => if p.1 = x then p.2 else 0

/-- Net settlement of participant `x` over a transaction list: total
received (`to = x`) minus total paid (`from = x`). -/
def netOf (txns : List Txn) (x : String) : ℚ :=
  sumBy txns fun t =>
    (if t.to_ = x then t.amount else 0) - (if t.from_ = x then t.amount else 0)

theorem sumBy_nil (f : α → ℚ) : sumBy [] f = 0 := rfl

theorem sumBy_cons (a : α) (l : List α) (f : α → ℚ) :
    sumBy (a :: l) f = f a + sumBy l f := by
  simp [sumBy]

theorem sumBy_perm {l l' : List α} (h : l.Perm l') (f : α → ℚ) :
    sumBy l f = sumBy l' f :=
  (h.map f).sum_eq

theorem sumBy_nonneg {l : List α} {f : α → ℚ} (h : ∀ a ∈ l, 0 ≤ f a) :
    0 ≤ sumBy l f := by
  induction l with
  | nil => simp [sumBy]
  | cons a t ih =>
    rw [sumBy_cons]
    have := h a (List.mem_cons_self a t)
    have := ih fun b hb => h b (List.mem_cons_of_mem a hb)
    linarith

/-- A list of strictly positive amounts with total zero is empty. -/
theorem eq_nil_of_amtSum_zero {l : List (String × ℚ)}
    (hpos : ∀ p ∈ l, 0 < p.2) (h0 : amtSum l = 0) : l = [] := by
  cases l with
  | nil => rfl
  | cons p t =>
    exfalso
    have h1 : 0 < p.2 := hpos p (List.mem_cons_self p t)
    have h2 : 0 ≤ amtSum t :=
      sumBy_nonneg fun q hq => le_of_lt (hpos q (List.mem_cons_of_mem p hq))
    rw [amtSum, sumBy_cons] at h0
    rw [amtSum] at h2
    linarith

theorem sortByAmountDesc_perm (l : List (String × ℚ)) :
    (sortByAmountDesc l).Perm l :=
  List.mergeSort_perm l _

/-! ## Correctness of the greedy settling loop -/

/-- Every transaction produced by the loop names a debtor key as `from`
and a creditor key as `to`. -/
theorem settleLoop_mem (cs ds : List (String × ℚ)) :
    ∀ t ∈ settleLoop cs ds,
      t.from_ ∈ ds.map Prod.fst ∧ t.to_ ∈ cs.map Prod.fst := by
  induction cs, ds using settleLoop.induct with
  | case1 ds => intro t ht; simp [settleLoop] at ht
  | case2 c cs => intro t ht; simp [settleLoop] at ht
  | case3 c cs d ds ih =>
    intro t ht
    rw [settleLoop] at ht
    rcases List.mem_append.mp ht with hhd | htl
    · have : t = ⟨d.1, c.1, round2 (min d.2 c.2)⟩ := by
        by_cases h : 0 < min d.2 c.2 <;> simp [h] at hhd
        · exact hhd
      subst this
      constructor <;> simp
    · obtain ⟨h1, h2⟩ := ih t htl
      constructor
      · rcases (by split at h1 <;> simp_all :
          t.from_ = d.1 ∨ t.from_ ∈ ds.map Prod.fst) with h | h
        · simp [h]
        · simp [h]
      · rcases (by split at h2 <;> simp_all :
          t.to_ = c.1 ∨ t.to_ ∈ cs.map Prod.fst) with h | h
        · simp [h]
        · simp [h]

theorem amtSum_cons (p : String × ℚ) (l : List (String × ℚ)) :
    amtSum (p :: l) = p.2 + amtSum l := by
  simp [amtSum, sumBy]

theorem entSum_cons (p : String × ℚ) (l : List (String × ℚ)) (x : String) :
    entSum (p :: l) x = (if p.1 = x then p.2 else 0) + entSum l x := by
  simp [entSum, sumBy]

theorem netOf_cons (t : Txn) (ts : List Txn) (x : String) :
    netOf (t :: ts) x =
      ((if t.to_ = x then t.amount else 0) -
        (if t.from_ = x then t.amount else 0)) + netOf ts x := by
  simp [netOf, sumBy]

/-- Conservation: when all pending amounts are positive whole-cent values
and the creditor and debtor totals agree, the loop settles every
participant exactly: the net amount they receive equals their creditor
entry total minus their debtor entry total. -/
theorem settleLoop_net (cs ds : List (String × ℚ)) :
    (∀ p ∈ cs, isCents p.2 ∧ 0 < p.2) →
    (∀ p ∈ ds, isCents p.2 ∧ 0 < p.2) →
    amtSum cs = amtSum ds →
    ∀ x, netOf (settleLoop cs ds) x = entSum cs x - entSum ds x := by
  induction cs, ds using settleLoop.induct with
  | case1 ds =>
    intro _ hd hsum x
    have hds : ds = [] :=
      eq_nil_of_amtSum_zero (fun p hp => (hd p hp).2) (by rw [← hsum]; rfl)
    subst hds
    simp [settleLoop, netOf, sumBy, entSum]
  | case2 c cs =>
    intro hc _ hsum x
    exfalso
    have hcs : c :: cs = [] :=
      eq_nil_of_amtSum_zero (fun p hp => (hc p hp).2) (by rw [hsum]; rfl)
    exact List.cons_ne_nil c cs hcs
  | case3 c cs d ds ih =>
    intro hc hd hsum x
    obtain ⟨hcC, hcP⟩ := hc c (List.mem_cons_self c cs)
    obtain ⟨hdC, hdP⟩ := hd d (List.mem_cons_self d ds)
    have hmP : 0 < min d.2 c.2 := lt_min hdP hcP
    have hmC : isCents (min d.2 c.2) := isCents_min hdC hcC
    have hmc : min d.2 c.2 ≤ c.2 := min_le_right _ _
    have hmd : min d.2 c.2 ≤ d.2 := min_le_left _ _
    have hcsC : ∀ p ∈ cs, isCents p.2 ∧ 0 < p.2 :=
      fun p hp => hc p (List.mem_cons_of_mem c hp)
    have hdsC : ∀ p ∈ ds, isCents p.2 ∧ 0 < p.2 :=
      fun p hp => hd p (List.mem_cons_of_mem d hp)
    rw [amtSum_cons, amtSum_cons] at hsum
    rw [settleLoop, if_pos hmP, List.singleton_append]
    have hr2 : round2 (min d.2 c.2) = min d.2 c.2 := round2_eq_self hmC
    by_cases hcKeep : c.2 - min d.2 c.2 < 1 / 100 <;>
      by_cases hdKeep : d.2 - min d.2 c.2 < 1 / 100
    · -- both heads drop: each residual is a whole-cent value in [0, 0.01)
      have hceq : c.2 = min d.2 c.2 := by
        have := isCents_small_eq_zero (isCents_sub hcC hmC) (by linarith) hcKeep
        linarith
      have hdeq : d.2 = min d.2 c.2 := by
        have := isCents_small_eq_zero (isCents_sub hdC hmC) (by linarith) hdKeep
        linarith
      rw [if_pos hcKeep, if_pos hdKeep]
      simp only [dif_pos hcKeep, dif_pos hdKeep] at ih
      have hIH := ih hcsC hdsC (by linarith) x
      rw [netOf_cons, hIH, entSum_cons, entSum_cons]
      dsimp only
      rw [hr2]
      split_ifs <;> linarith
    · -- creditor drops, debtor keeps
      have hceq : c.2 = min d.2 c.2 := by
        have := isCents_small_eq_zero (isCents_sub hcC hmC) (by linarith) hcKeep
        linarith
      rw [if_pos hcKeep, if_neg hdKeep]
      simp only [dif_pos hcKeep, dif_neg hdKeep] at ih
      have hds' : ∀ p ∈ (d.1, d.2 - min d.2 c.2) :: ds, isCents p.2 ∧ 0 < p.2 := by
        intro p hp
        rcases List.mem_cons.mp hp with h | h
        · subst h
          refine ⟨isCents_sub hdC hmC, ?_⟩
          show (0 : ℚ) < d.2 - min d.2 c.2
          push_neg at hdKeep
          linarith
        · exact hdsC p h
      have hIH := ih hcsC hds' (by rw [amtSum_cons]; dsimp only; linarith) x
      rw [netOf_cons, hIH, entSum_cons, entSum_cons, entSum_cons]
      dsimp only
      rw [hr2]
      split_ifs <;> linarith
    · -- debtor drops, creditor keeps
      have hdeq : d.2 = min d.2 c.2 := by
        have := isCents_small_eq_zero (isCents_sub hdC hmC) (by linarith) hdKeep
        linarith
      rw [if_neg hcKeep, if_pos hdKeep]
      simp only [dif_neg hcKeep, dif_pos hdKeep] at ih
      have hcs' : ∀ p ∈ (c.1, c.2 - min d.2 c.2) :: cs, isCents p.2 ∧ 0 < p.2 := by
        intro p hp
        rcases List.mem_cons.mp hp with h | h
        · subst h
          refine ⟨isCents_sub hcC hmC, ?_⟩
          show (0 : ℚ) < c.2 - min d.2 c.2
          push_neg at hcKeep
          linarith
        · exact hcsC p h
      have hIH := ih hcs' hdsC (by rw [amtSum_cons]; dsimp only; linarith) x
      rw [netOf_cons, hIH, entSum_cons, entSum_cons, entSum_cons]
      dsimp only
      rw [hr2]
      split_ifs <;> linarith
    · -- impossible: the minimum always zeroes at least one head
      exfalso
      push_neg at hcKeep hdKeep
      rcases min_choice d.2 c.2 with h | h
      · rw [h] at hdKeep; simp at hdKeep; linarith
      · rw [h] at hcKeep; simp at hcKeep; linarith

/-! ## Characterisation of the allocator -/

theorem isCents_mul_nat {a : ℚ} (ha : isCents a) (m : ℕ) :
    isCents (a * m) := by
  obtain ⟨k, rfl⟩ := ha
  exact ⟨k * m, by push_cast; ring⟩

theorem round2_nonneg {q : ℚ} (h : 0 ≤ q) : 0 ≤ round2 q := by
  rw [round2]
  have : (0 : ℤ) ≤ round (q * 100) := by
    rw [round_eq]
    have : (0 : ℚ) ≤ q * 100 + 1 / 2 := by linarith
    exacts [Int.floor_nonneg.mpr this]
  positivity

theorem sumBy_const (l : List α) (c : ℚ) :
    sumBy l (fun _ => c) = l.length * c := by
  induction l with
  | nil => simp [sumBy]
  | cons a t ih =>
    rw [sumBy_cons, ih, List.length_cons]
    push_cast
    ring

/-- Closed form of `calculateEqualSplit` on a nonempty user list when the
amount is an exact two-decimal value: all users get the rounded even
share, and the first user additionally absorbs the whole rounding
difference (their share is `amount` minus everyone else's rounded
share). -/
theorem calculateEqualSplit_eq (amount : ℚ) (u0 : String) (rest : List String)
    (hcents : isCents amount) :
    calculateEqualSplit amount (u0 :: rest) =
      ⟨u0, amount - round2 (amount / ((u0 :: rest).length : ℚ)) *
          (rest.length : ℚ)⟩ ::
        rest.map fun u => ⟨u, round2 (amount / ((u0 :: rest).length : ℚ))⟩ := by
  rw [calculateEqualSplit]
  set per := round2 (amount / ((u0 :: rest).length : ℚ)) with hper
  have hc : isCents (amount - per * (rest.length : ℚ)) :=
    isCents_sub hcents (isCents_mul_nat (isCents_round2 _) rest.length)
  by_cases hd : amount - per * ((rest.length : ℚ) + 1) ≠ 0
  · rw [if_pos hd]
    have hval : per + (amount - per * ((rest.length : ℚ) + 1)) =
        amount - per * (rest.length : ℚ) := by
      ring
    rw [hval, round2_eq_self hc]
  · rw [if_neg hd]
    push_neg at hd
    congr 2
    linarith

/-- On an all-nonnegative detail list the percentage loop succeeds,
accumulating the percentage total and one rounded split per key. -/
theorem percLoop_ok (amount : ℚ) (l : List (String × ℚ))
    (hnn : ∀ p ∈ l, 0 ≤ p.2) (total : ℚ) (splits : List Split) :
    percLoop amount l total splits =
      .ok (total + sumBy l Prod.snd,
        splits ++ l.map fun p => ⟨p.1, round2 (amount * p.2 / 100)⟩) := by
  induction l generalizing total splits with
  | nil => simp [percLoop, sumBy]
  | cons p t ih =>
    obtain ⟨u, q⟩ := p
    have h0 : ¬q < 0 := not_lt.mpr (hnn (u, q) (List.mem_cons_self _ _))
    rw [percLoop.eq_def]
    dsimp only
    rw [if_neg h0, ih (fun r hr => hnn r (List.mem_cons_of_mem _ hr))]
    rw [sumBy_cons]
    dsimp only
    rw [List.append_assoc]
    rw [add_assoc]
    rfl

/-- A successful percentage loop implies every percentage was
nonnegative. -/
theorem percLoop_ok_nonneg {amount : ℚ} {l : List (String × ℚ)}
    {total : ℚ} {splits : List Split} {r : ℚ × List Split}
    (h : percLoop amount l total splits = .ok r) : ∀ p ∈ l, 0 ≤ p.2 := by
  induction l generalizing total splits with
  | nil => intro p hp; cases hp
  | cons p t ih =>
    obtain ⟨u, q⟩ := p
    rw [percLoop.eq_def] at h
    dsimp only at h
    intro s hs
    by_cases h0 : q < 0
    · rw [if_pos h0] at h
      cases h
    · rw [if_neg h0] at h
      rcases List.mem_cons.mp hs with hh | hh
      · subst hh
        exact not_lt.mp h0
      · exact ih h s hh

/-- On an all-nonnegative detail list the exact loop succeeds, accumulating
the share total and one verbatim split per key. -/
theorem exactLoop_ok (l : List (String × ℚ))
    (hnn : ∀ p ∈ l, 0 ≤ p.2) (total : ℚ) (splits : List Split) :
    exactLoop l total splits =
      .ok (total + sumBy l Prod.snd,
        splits ++ l.map fun p => ⟨p.1, p.2⟩) := by
  induction l generalizing total splits with
  | nil => simp [exactLoop, sumBy]
  | cons p t ih =>
    obtain ⟨u, q⟩ := p
    have h0 : ¬q < 0 := not_lt.mpr (hnn (u, q) (List.mem_cons_self _ _))
    rw [exactLoop.eq_def]
    dsimp only
    rw [if_neg h0, ih (fun r hr => hnn r (List.mem_cons_of_mem _ hr))]
    rw [sumBy_cons]
    dsimp only
    rw [List.append_assoc]
    rw [add_assoc]
    rfl

/-- A successful exact loop implies every share was nonnegative. -/
theorem exactLoop_ok_nonneg {l : List (String × ℚ)}
    {total : ℚ} {splits : List Split} {r : ℚ × List Split}
    (h : exactLoop l total splits = .ok r) : ∀ p ∈ l, 0 ≤ p.2 := by
  induction l generalizing total splits with
  | nil => intro p hp; cases hp
  | cons p t ih =>
    obtain ⟨u, q⟩ := p
    rw [exactLoop.eq_def] at h
    dsimp only at h
    intro s hs
    by_cases h0 : q < 0
    · rw [if_pos h0] at h
      cases h
    · rw [if_neg h0] at h
      rcases List.mem_cons.mp hs with hh | hh
      · subst hh
        exact not_lt.mp h0
      · exact ih h s hh

/-- `calculatePercentageSplit` on nonnegative percentages within tolerance
of 100: one split per detail key, in order, each rounded pointwise.  No
remainder correction is applied. -/
theorem calculatePercentageSplit_ok (amount : ℚ) (d : List (String × ℚ))
    (hnn : ∀ p ∈ d, 0 ≤ p.2)
    (htot : |sumBy d Prod.snd - 100| ≤ 1 / 100) :
    calculatePercentageSplit amount d =
      .ok (d.map fun p => ⟨p.1, round2 (amount * p.2 / 100)⟩) := by
  rw [calculatePercentageSplit, percLoop_ok amount d hnn 0 []]
  rw [zero_add]
  dsimp only
  rw [if_neg (not_lt.mpr htot), List.nil_append]

/-- `calculatePercentageSplit` on nonnegative percentages out of tolerance:
the error carries the accumulated total percentage. -/
theorem calculatePercentageSplit_err (amount : ℚ) (d : List (String × ℚ))
    (hnn : ∀ p ∈ d, 0 ≤ p.2)
    (htot : |sumBy d Prod.snd - 100| > 1 / 100) :
    calculatePercentageSplit amount d =
      .error (.totalPercentageNot100 (sumBy d Prod.snd)) := by
  rw [calculatePercentageSplit, percLoop_ok amount d hnn 0 []]
  rw [zero_add]
  dsimp only
  rw [if_pos htot]

/-- Any successful percentage split has exactly the detail keys, in order,
with pointwise-rounded nonnegative shares. -/
theorem calculatePercentageSplit_inv {amount : ℚ} {d : List (String × ℚ)}
    {splits : List Split}
    (h : calculatePercentageSplit amount d = .ok splits) :
    splits = (d.map fun p => ⟨p.1, round2 (amount * p.2 / 100)⟩) ∧
      ∀ p ∈ d, 0 ≤ p.2 := by
  rw [calculatePercentageSplit] at h
  rcases hp : percLoop amount d 0 [] with e | r
  · rw [hp] at h
    cases h
  · have hnn := percLoop_ok_nonneg hp
    rw [percLoop_ok amount d hnn 0 []] at hp
    cases hp
    rw [percLoop_ok amount d hnn 0 []] at h
    dsimp only at h
    split at h
    · cases h
    · cases h
      exact ⟨(List.nil_append _).symm ▸ rfl, hnn⟩

/-- Any successful exact split has exactly the detail keys, in order, with
their verbatim nonnegative shares. -/
theorem validateExactSplit_inv {amount : ℚ} {d : List (String × ℚ)}
    {splits : List Split}
    (h : validateExactSplit amount d = .ok splits) :
    splits = (d.map fun p => ⟨p.1, p.2⟩) ∧ ∀ p ∈ d, 0 ≤ p.2 := by
  rw [validateExactSplit] at h
  rcases hp : exactLoop d 0 [] with e | r
  · rw [hp] at h
    cases h
  · have hnn := exactLoop_ok_nonneg hp
    rw [exactLoop_ok d hnn 0 []] at hp
    cases hp
    rw [exactLoop_ok d hnn 0 []] at h
    dsimp only at h
    split at h
    · cases h
    · cases h
      exact ⟨(List.nil_append _).symm ▸ rfl, hnn⟩

/-! ## Characterisation of `simplifyDebts` -/

theorem creditorsOf_cons (p : String × ℚ) (t : List (String × ℚ)) :
    creditorsOf (p :: t) =
      if 0 < round2 p.2 then (p.1, round2 p.2) :: creditorsOf t
      else creditorsOf t := by
  by_cases h : 0 < round2 p.2 <;> simp [creditorsOf, List.filterMap_cons, h]

theorem debtorsOf_cons (p : String × ℚ) (t : List (String × ℚ)) :
    debtorsOf (p :: t) =
      if round2 p.2 < 0 then (p.1, |round2 p.2|) :: debtorsOf t
      else debtorsOf t := by
  by_cases h : round2 p.2 < 0 <;> simp [debtorsOf, List.filterMap_cons, h]

theorem mem_creditorsOf {balances : List (String × ℚ)} {p : String × ℚ}
    (h : p ∈ creditorsOf balances) : isCents p.2 ∧ 0 < p.2 := by
  rw [creditorsOf, List.mem_filterMap] at h
  obtain ⟨a, _, ha⟩ := h
  split at ha
  · cases ha
    exact ⟨isCents_round2 _, by assumption⟩
  · cases ha

theorem mem_debtorsOf {balances : List (String × ℚ)} {p : String × ℚ}
    (h : p ∈ debtorsOf balances) : isCents p.2 ∧ 0 < p.2 := by
  rw [debtorsOf, List.mem_filterMap] at h
  obtain ⟨a, _, ha⟩ := h
  split at ha
  · cases ha
    refine ⟨isCents_abs (isCents_round2 _), ?_⟩
    rw [abs_pos]
    exact ne_of_lt (by assumption)
  · cases ha

theorem map_fst_creditorsOf_subset (balances : List (String × ℚ)) :
    (creditorsOf balances).map Prod.fst ⊆ balances.map Prod.fst := by
  intro u hu
  rw [List.mem_map] at hu ⊢
  obtain ⟨p, hp, rfl⟩ := hu
  rw [creditorsOf, List.mem_filterMap] at hp
  obtain ⟨a, ha, hpa⟩ := hp
  split at hpa
  · cases hpa; exact ⟨a, ha, rfl⟩
  · cases hpa

theorem map_fst_debtorsOf_subset (balances : List (String × ℚ)) :
    (debtorsOf balances).map Prod.fst ⊆ balances.map Prod.fst := by
  intro u hu
  rw [List.mem_map] at hu ⊢
  obtain ⟨p, hp, rfl⟩ := hu
  rw [debtorsOf, List.mem_filterMap] at hp
  obtain ⟨a, ha, hpa⟩ := hp
  split at hpa
  · cases hpa; exact ⟨a, ha, rfl⟩
  · cases hpa

/-- Creditor total minus debtor total is the sum of the rounded balances. -/
theorem amtSum_creditors_sub_debtors (balances : List (String × ℚ)) :
    amtSum (creditorsOf balances) - amtSum (debtorsOf balances) =
      sumBy balances fun p => round2 p.2 := by
  induction balances with
  | nil => simp [creditorsOf, debtorsOf, amtSum, sumBy]
  | cons p t ih =>
    rw [sumBy_cons, creditorsOf_cons, debtorsOf_cons]
    rcases lt_trichotomy (round2 p.2) 0 with h | h | h
    · rw [if_neg (by linarith), if_pos h, amtSum_cons]
      dsimp only
      rw [abs_of_neg h]
      linarith
    · rw [if_neg (by linarith), if_neg (by linarith), h]
      linarith
    · rw [if_pos h, if_neg (by linarith), amtSum_cons]
      dsimp only
      linarith

theorem entSum_eq_zero_of_not_mem {l : List (String × ℚ)} {x : String}
    (h : x ∉ l.map Prod.fst) : entSum l x = 0 := by
  induction l with
  | nil => rfl
  | cons p t ih =>
    rw [List.map_cons] at h
    rw [entSum_cons, ih (fun hx => h (List.mem_cons_of_mem _ hx))]
    rw [if_neg (fun he => h (by rw [← he]; exact List.mem_cons_self _ _))]
    ring

/-- With unique keys, the creditor-entry total of a participant with
balance `b` is their rounded balance when positive, else zero. -/
theorem entSum_creditorsOf {balances : List (String × ℚ)} {u : String} {b : ℚ}
    (hnd : (balances.map Prod.fst).Nodup) (hmem : (u, b) ∈ balances) :
    entSum (creditorsOf balances) u =
      if 0 < round2 b then round2 b else 0 := by
  induction balances with
  | nil => cases hmem
  | cons p t ih =>
    rw [List.map_cons, List.nodup_cons] at hnd
    rw [creditorsOf_cons]
    rcases List.mem_cons.mp hmem with h | h
    · subst h
      have hzero : entSum (creditorsOf t) u = 0 :=
        entSum_eq_zero_of_not_mem
          (fun hu => hnd.1 (map_fst_creditorsOf_subset t hu))
      by_cases hb : 0 < round2 b
      · rw [if_pos hb, entSum_cons]
        dsimp only
        rw [if_pos rfl, hzero, if_pos hb]
        ring
      · rw [if_neg hb, hzero, if_neg hb]
    · have hne : p.1 ≠ u := by
        intro he
        exact hnd.1 (he ▸ List.mem_map_of_mem Prod.fst h)
      have := ih hnd.2 h
      by_cases hp2 : 0 < round2 p.2
      · rw [if_pos hp2, entSum_cons]
        dsimp only
        rw [if_neg hne, this]
        ring
      · rw [if_neg hp2, this]

/-- With unique keys, the debtor-entry total of a participant with balance
`b` is the magnitude of their rounded balance when negative, else zero. -/
theorem entSum_debtorsOf {balances : List (String × ℚ)} {u : String} {b : ℚ}
    (hnd : (balances.map Prod.fst).Nodup) (hmem : (u, b) ∈ balances) :
    entSum (debtorsOf balances) u =
      if round2 b < 0 then |round2 b| else 0 := by
  induction balances with
  | nil => cases hmem
  | cons p t ih =>
    rw [List.map_cons, List.nodup_cons] at hnd
    rw [debtorsOf_cons]
    rcases List.mem_cons.mp hmem with h | h
    · subst h
      have hzero : entSum (debtorsOf t) u = 0 :=
        entSum_eq_zero_of_not_mem
          (fun hu => hnd.1 (map_fst_debtorsOf_subset t hu))
      by_cases hb : round2 b < 0
      · rw [if_pos hb, entSum_cons]
        dsimp only
        rw [if_pos rfl, hzero, if_pos hb]
        ring
      · rw [if_neg hb, hzero, if_neg hb]
    · have hne : p.1 ≠ u := by
        intro he
        exact hnd.1 (he ▸ List.mem_map_of_mem Prod.fst h)
      have := ih hnd.2 h
      by_cases hp2 : round2 p.2 < 0
      · rw [if_pos hp2, entSum_cons]
        dsimp only
        rw [if_neg hne, this]
        ring
      · rw [if_neg hp2, this]

/-- Main conservation result for `simplifyDebts`: if the keys are unique
and the rounded balances sum to zero, every participant's net settlement
equals their rounded balance. -/
theorem simplifyDebts_netOf {balances : List (String × ℚ)}
    (hnd : (balances.map Prod.fst).Nodup)
    (hzero : (sumBy balances fun p => round2 p.2) = 0)
    {u : String} {b : ℚ} (hmem : (u, b) ∈ balances) :
    netOf (simplifyDebts balances) u = round2 b := by
  have hpermC := sortByAmountDesc_perm (creditorsOf balances)
  have hpermD := sortByAmountDesc_perm (debtorsOf balances)
  have hc : ∀ p ∈ sortByAmountDesc (creditorsOf balances),
      isCents p.2 ∧ 0 < p.2 :=
    fun p hp => mem_creditorsOf (hpermC.mem_iff.mp hp)
  have hd : ∀ p ∈ sortByAmountDesc (debtorsOf balances),
      isCents p.2 ∧ 0 < p.2 :=
    fun p hp => mem_debtorsOf (hpermD.mem_iff.mp hp)
  have hsum : amtSum (sortByAmountDesc (creditorsOf balances)) =
      amtSum (sortByAmountDesc (debtorsOf balances)) := by
    rw [amtSum, amtSum, sumBy_perm hpermC, sumBy_perm hpermD]
    have h1 := amtSum_creditors_sub_debtors balances
    rw [hzero] at h1
    rw [amtSum, amtSum] at h1
    linarith
  have hnet := settleLoop_net _ _ hc hd hsum u
  rw [simplifyDebts, hnet]
  rw [entSum, entSum, sumBy_perm hpermC, sumBy_perm hpermD]
  rw [← entSum, ← entSum, entSum_creditorsOf hnd hmem, entSum_debtorsOf hnd hmem]
  rcases lt_trichotomy (round2 b) 0 with h | h | h
  · rw [if_neg (by linarith), if_pos h, abs_of_neg h]
    ring
  · rw [if_neg (by linarith), if_neg (by linarith), h]
    ring
  · rw [if_pos h, if_neg (by linarith)]
    ring

/-- With unique keys, a key determines its balance entry. -/
theorem snd_eq_of_nodup {l : List (String × ℚ)}
    (hnd : (l.map Prod.fst).Nodup) {u : String} {b b' : ℚ}
    (h1 : (u, b) ∈ l) (h2 : (u, b') ∈ l) : b = b' := by
  induction l with
  | nil => cases h1
  | cons p t ih =>
    rw [List.map_cons, List.nodup_cons] at hnd
    rcases List.mem_cons.mp h1 with e1 | e1 <;>
      rcases List.mem_cons.mp h2 with e2 | e2
    · rw [← e2] at e1
      exact congrArg Prod.snd e1
    · rw [← e1] at hnd
      exact absurd (List.mem_map_of_mem Prod.fst e2) hnd.1
    · rw [← e2] at hnd
      exact absurd (List.mem_map_of_mem Prod.fst e1) hnd.1
    · exact ih hnd.2 e1 e2

/-- A debtor key comes from a balance entry that rounds negative. -/
theorem of_mem_debtors_key {balances : List (String × ℚ)} {u : String}
    (h : u ∈ (debtorsOf balances).map Prod.fst) :
    ∃ b, (u, b) ∈ balances ∧ round2 b < 0 := by
  rw [List.mem_map] at h
  obtain ⟨p, hp, hpf⟩ := h
  rw [debtorsOf, List.mem_filterMap] at hp
  obtain ⟨a, ha, hpa⟩ := hp
  split at hpa
  · cases hpa
    exact ⟨a.2, by rw [← hpf]; simpa using ha, by assumption⟩
  · cases hpa

/-- A creditor key comes from a balance entry that rounds positive. -/
theorem of_mem_creditors_key {balances : List (String × ℚ)} {u : String}
    (h : u ∈ (creditorsOf balances).map Prod.fst) :
    ∃ b, (u, b) ∈ balances ∧ 0 < round2 b := by
  rw [List.mem_map] at h
  obtain ⟨p, hp, hpf⟩ := h
  rw [creditorsOf, List.mem_filterMap] at hp
  obtain ⟨a, ha, hpa⟩ := hp
  split at hpa
  · cases hpa
    exact ⟨a.2, by rw [← hpf]; simpa using ha, by assumption⟩
  · cases hpa

/-- A participant whose unique balance entry rounds to zero never appears
in the output of `simplifyDebts`. -/
theorem simplifyDebts_zero_excluded {balances : List (String × ℚ)}
    (hnd : (balances.map Prod.fst).Nodup)
    {u : String} {b : ℚ} (hmem : (u, b) ∈ balances) (hb : round2 b = 0) :
    ∀ t ∈ simplifyDebts balances, t.from_ ≠ u ∧ t.to_ ≠ u := by
  intro t ht
  obtain ⟨hf, hto⟩ := settleLoop_mem _ _ t ht
  rw [((sortByAmountDesc_perm (debtorsOf balances)).map Prod.fst).mem_iff] at hf
  rw [((sortByAmountDesc_perm (creditorsOf balances)).map Prod.fst).mem_iff] at hto
  constructor
  · intro he
    rw [he] at hf
    obtain ⟨b', hb', hneg⟩ := of_mem_debtors_key hf
    rw [snd_eq_of_nodup hnd hmem hb'] at hb
    rw [hb] at hneg
    exact absurd hneg (by norm_num)
  · intro he
    rw [he] at hto
    obtain ⟨b', hb', hpos⟩ := of_mem_creditors_key hto
    rw [snd_eq_of_nodup hnd hmem hb'] at hb
    rw [hb] at hpos
    exact absurd hpos (by norm_num)

/-! ## Balance Aggregator (`calculateGroupBalances`, `calculateUserBalance`)
and the statistics endpoints -/

/-- A persisted split record inside an expense: participant, share and the
`settled` flag. -/
structure SplitRec where
  user : String
  share : ℚ
  settled : Bool
  deriving Repr, DecidableEq

/-- An expense as consumed by the aggregator: `paidBy`, `amount`,
`splits`. -/
structure Expense where
  paidBy : String
  amount : ℚ
  splits : List SplitRec
  deriving Repr, DecidableEq

/-- `balances[k] += v` on an association list.  (In JavaScript, writing to
a missing key would first read `undefined` and produce `NaN`; all theorems
below therefore assume the touched keys were initialised, which is the
`groupMembers` membership hypothesis.) -/
def bumpKey (bal : List (String × ℚ)) (k : String) (v : ℚ) :
    List (String × ℚ) :=
  bal.map fun p => if p.1 = k then (p.1, p.2 + v) else p

/-- The per-expense body of `calculateGroupBalances`: credit the payer with
the full amount, then debit each split member by their share. -/
def applyExpense (bal : List (String × ℚ)) (e : Expense) :
    List (String × ℚ) :=
  e.splits.foldl (fun b s => bumpKey b s.user (-s.share))
    (bumpKey bal e.paidBy e.amount)

/-- `calculateGroupBalances(expenses, groupMembers)`: balances initialised
to 0 for every member, folded over the expenses, plus the simplified
transactions. -/
def calculateGroupBalances (expenses : List Expense)
    (groupMembers : List String) : List (String × ℚ) × List Txn :=
  let balances :=
    expenses.foldl applyExpense (groupMembers.map fun m => (m, (0 : ℚ)))
  (balances, simplifyDebts balances)

/-- `calculateUserBalance(expenses, userId)`: returns
`(userOwes, userIsOwed)`.  The payer accumulates `amount` into
`userIsOwed`; the user's first matching split (if any) accumulates its
share into `userOwes`. -/
def calculateUserBalance (expenses : List Expense) (userId : String) :
    ℚ × ℚ :=
  expenses.foldl
    (fun acc e =>
      let isOwed := if e.paidBy = userId then acc.2 + e.amount else acc.2
      let owes :=
        match e.splits.find? fun s => s.user == userId with
        | some s => acc.1 + s.share
        | none => acc.1
      (owes, isOwed))
    (0, 0)

/-! ## Statistics endpoints -/

/-- `getUserStats` (users controller, first version): per group, the
rounded `userIsOwed` is added to `totalOwed` and the rounded `userOwes` to
`totalOwing`; the response rounds the accumulators and their difference
again.  Returns `(totalOwed, totalOwing, overallBalance)`. -/
def getUserStatsV1 (groups : List (List Expense)) (userId : String) :
    ℚ × ℚ × ℚ :=
  let acc := groups.foldl
    (fun (acc : ℚ × ℚ) g =>
      let ub := calculateUserBalance g userId
      (acc.1 + round2 ub.2, acc.2 + round2 ub.1))
    (0, 0)
  (round2 acc.1, round2 acc.2, round2 (acc.1 - acc.2))

/-- The per-group `totalOthersPaidYou` computation of the second
`getUserStats` version: over the group's expenses paid by the user that
have at least one settled split of another participant, it adds the share
of the *first* settled other-participant split found in each such
expense. -/
def othersPaidYouGroup (groupExpenses : List Expense) (userId : String) : ℚ :=
  (groupExpenses.filter fun e =>
      e.paidBy == userId &&
        e.splits.any fun s => s.user != userId && s.settled).foldl
    (fun total e =>
      match e.splits.find? fun s => s.user != userId && s.settled with
      | some s => total + s.share
      | none => total) 0

/-- The cross-group accumulation of `totalOthersPaidYou` in the second
`getUserStats` version: the statement is `totalOthersPaidYou = …`, not
`+= …`, so each non-empty group overwrites the previous value (empty
groups are skipped by `continue`). -/
def totalOthersPaidYouStats (groups : List (List Expense))
    (userId : String) : ℚ :=
  groups.foldl
    (fun acc g => if g = [] then acc else othersPaidYouGroup g userId) 0

/-- Follows the spec's words: the amount others have already settled back
to the participant as payer is the sum of the shares of every settled
split belonging to other participants, over all expenses the participant
paid, accumulated across all of the participant's groups. -/
def specOthersSettledToPayer (groups : List (List Expense))
    (userId : String) : ℚ :=
  sumBy groups fun g =>
    sumBy (g.filter fun e => e.paidBy == userId) fun e =>
      sumBy (e.splits.filter fun s => s.user != userId && s.settled)
        SplitRec.share

/-- `getGroupBalanceSummary` (group controller): settlement-aware
per-participant breakdown over one group's expenses, returning
`(yourShare, youPaid, othersPaidYou, youNeedToPay, othersYetToPay)`, each
formatted with `formatValue` (= `round2`) only at the end. -/
def getGroupBalanceSummary (expenses : List Expense) (userId : String) :
    ℚ × ℚ × ℚ × ℚ × ℚ :=
  if expenses = [] then (0, 0, 0, 0, 0) else
  let userOwes := (calculateUserBalance expenses userId).1
  let youPaid := expenses.foldl
    (fun total e => if e.paidBy = userId then total + e.amount else total) 0
  let othersPaidYouSettled :=
    (expenses.filter fun e =>
        e.paidBy != userId &&
          e.splits.any fun s => s.user == userId && s.settled).foldl
      (fun total e =>
        match e.splits.find? fun s => s.user == userId && s.settled with
        | some s => total + s.share
        | none => total) 0
  let youPaidOthersSettled :=
    (expenses.filter fun e => e.paidBy == userId).foldl
      (fun total e =>
        total + e.splits.foldl
          (fun acc s =>
            if s.user ≠ userId ∧ s.settled then acc + s.share else acc) 0) 0
  let othersYetToPay :=
    (expenses.filter fun e => e.paidBy == userId).foldl
      (fun total e =>
        total + e.splits.foldl
          (fun acc s =>
            if s.user ≠ userId ∧ ¬s.settled then acc + s.share else acc) 0) 0
  let youNeedToPay :=
    (expenses.filter fun e => e.paidBy != userId).foldl
      (fun total e =>
        match e.splits.find? fun s => s.user == userId && !s.settled with
        | some s => total + s.share
        | none => total) 0
  (round2 userOwes, round2 youPaid,
    round2 (othersPaidYouSettled + youPaidOthersSettled),
    round2 youNeedToPay, round2 othersYetToPay)

/-! ## Balance-aggregation lemmas -/

theorem bumpKey_map_fst (b : List (String × ℚ)) (k : String) (v : ℚ) :
    (bumpKey b k v).map Prod.fst = b.map Prod.fst := by
  induction b with
  | nil => rfl
  | cons p t ih =>
    rw [bumpKey] at ih ⊢
    rw [List.map_cons, List.map_cons, List.map_cons, ih]
    by_cases h : p.1 = k <;> simp [h]

theorem bumpKey_of_not_mem {b : List (String × ℚ)} {k : String}
    (h : k ∉ b.map Prod.fst) (v : ℚ) : bumpKey b k v = b := by
  induction b with
  | nil => rfl
  | cons p t ih =>
    rw [List.map_cons] at h
    rw [bumpKey, List.map_cons]
    rw [if_neg (fun he => h (by rw [← he]; exact List.mem_cons_self _ _))]
    have := ih (fun hx => h (List.mem_cons_of_mem _ hx))
    rw [bumpKey] at this
    rw [this]

theorem entSum_bumpKey_ne {b : List (String × ℚ)} {k x : String}
    (h : k ≠ x) (v : ℚ) : entSum (bumpKey b k v) x = entSum b x := by
  induction b with
  | nil => rfl
  | cons p t ih =>
    rw [bumpKey, List.map_cons, ← bumpKey, entSum_cons, entSum_cons, ih]
    by_cases hp : p.1 = k
    · rw [if_pos hp]
      dsimp only
      rw [if_neg (show ¬p.1 = x from hp ▸ h), if_neg (show ¬p.1 = x from hp ▸ h)]
    · rw [if_neg hp]

theorem entSum_bumpKey_self {b : List (String × ℚ)} {x : String}
    (hnd : (b.map Prod.fst).Nodup) (hx : x ∈ b.map Prod.fst) (v : ℚ) :
    entSum (bumpKey b x v) x = entSum b x + v := by
  induction b with
  | nil => cases hx
  | cons p t ih =>
    rw [List.map_cons, List.nodup_cons] at hnd
    rw [bumpKey, List.map_cons, ← bumpKey, entSum_cons, entSum_cons]
    by_cases hp : p.1 = x
    · rw [if_pos hp]
      dsimp only
      rw [if_pos hp, if_pos hp]
      have hnx : x ∉ t.map Prod.fst := hp ▸ hnd.1
      rw [entSum_eq_zero_of_not_mem hnx,
        entSum_eq_zero_of_not_mem (x := x) (by
          rw [bumpKey_of_not_mem hnx]
          exact hnx)]
      ring
    · rw [if_neg hp]
      rw [if_neg hp]
      have hxt : x ∈ t.map Prod.fst := by
        rw [List.map_cons] at hx
        rcases List.mem_cons.mp hx with h | h
        · exact absurd h.symm hp
        · exact h
      rw [ih hnd.2 hxt]
      ring

/-- Effect of one `bumpKey` on a tracked key, when all keys are unique and
the bumped key is present. -/
theorem entSum_bumpKey {b : List (String × ℚ)} {k : String}
    (hnd : (b.map Prod.fst).Nodup) (hk : k ∈ b.map Prod.fst)
    (v : ℚ) (x : String) :
    entSum (bumpKey b k v) x = entSum b x + if k = x then v else 0 := by
  by_cases h : k = x
  · subst h
    rw [if_pos rfl, entSum_bumpKey_self hnd hk v]
  · rw [if_neg h, entSum_bumpKey_ne h v]
    ring

theorem foldl_bump_map_fst (splits : List SplitRec) (b : List (String × ℚ)) :
    ((splits.foldl (fun b s => bumpKey b s.user (-s.share)) b).map Prod.fst) =
      b.map Prod.fst := by
  induction splits generalizing b with
  | nil => rfl
  | cons s t ih => rw [List.foldl_cons, ih, bumpKey_map_fst]

theorem applyExpense_map_fst (b : List (String × ℚ)) (e : Expense) :
    (applyExpense b e).map Prod.fst = b.map Prod.fst := by
  rw [applyExpense, foldl_bump_map_fst, bumpKey_map_fst]

theorem entSum_foldl_bump (splits : List SplitRec) (b : List (String × ℚ))
    (x : String) (hnd : (b.map Prod.fst).Nodup)
    (hdom : ∀ s ∈ splits, s.user ∈ b.map Prod.fst) :
    entSum (splits.foldl (fun b s => bumpKey b s.user (-s.share)) b) x =
      entSum b x - sumBy splits (fun s => if s.user = x then s.share else 0) := by
  induction splits generalizing b with
  | nil =>
    rw [List.foldl_nil]
    rw [show sumBy [] (fun (s : SplitRec) =>
      if s.user = x then s.share else 0) = 0 from rfl]
    ring
  | cons s t ih =>
    rw [List.foldl_cons, sumBy_cons]
    have hnd' : ((bumpKey b s.user (-s.share)).map Prod.fst).Nodup := by
      rw [bumpKey_map_fst]; exact hnd
    have hdom' : ∀ r ∈ t, r.user ∈ (bumpKey b s.user (-s.share)).map Prod.fst := by
      rw [bumpKey_map_fst]
      exact fun r hr => hdom r (List.mem_cons_of_mem _ hr)
    rw [ih _ hnd' hdom']
    rw [entSum_bumpKey hnd (hdom s (List.mem_cons_self _ _)) (-s.share) x]
    by_cases hu : s.user = x
    · rw [if_pos hu, if_pos hu]
      ring
    · rw [if_neg hu, if_neg hu]
      ring

/-- Effect of one expense on a tracked balance: the payer gains the
amount, each split member loses their share (settled flags ignored). -/
theorem entSum_applyExpense (b : List (String × ℚ)) (e : Expense) (x : String)
    (hnd : (b.map Prod.fst).Nodup) (hpay : e.paidBy ∈ b.map Prod.fst)
    (hsp : ∀ s ∈ e.splits, s.user ∈ b.map Prod.fst) :
    entSum (applyExpense b e) x =
      entSum b x + (if e.paidBy = x then e.amount else 0) -
        sumBy e.splits (fun s => if s.user = x then s.share else 0) := by
  rw [applyExpense,
    entSum_foldl_bump _ _ _ (by rw [bumpKey_map_fst]; exact hnd)
      (by rw [bumpKey_map_fst]; exact hsp),
    entSum_bumpKey hnd hpay]

theorem entSum_foldl_applyExpense (expenses : List Expense)
    (b : List (String × ℚ)) (x : String) (hnd : (b.map Prod.fst).Nodup)
    (hdom : ∀ e ∈ expenses, e.paidBy ∈ b.map Prod.fst ∧
      ∀ s ∈ e.splits, s.user ∈ b.map Prod.fst) :
    entSum (expenses.foldl applyExpense b) x =
      entSum b x +
        sumBy expenses (fun e => if e.paidBy = x then e.amount else 0) -
        sumBy expenses
          (fun e => sumBy e.splits fun s => if s.user = x then s.share else 0) := by
  induction expenses generalizing b with
  | nil =>
    rw [List.foldl_nil]
    rw [show sumBy ([] : List Expense)
      (fun e => if e.paidBy = x then e.amount else 0) = 0 from rfl]
    rw [show sumBy ([] : List Expense)
      (fun e => sumBy e.splits fun s => if s.user = x then s.share else 0) = 0
        from rfl]
    ring
  | cons e t ih =>
    obtain ⟨hpay, hsp⟩ := hdom e (List.mem_cons_self _ _)
    have hnd' : ((applyExpense b e).map Prod.fst).Nodup := by
      rw [applyExpense_map_fst]; exact hnd
    have hdom' : ∀ f ∈ t, f.paidBy ∈ (applyExpense b e).map Prod.fst ∧
        ∀ s ∈ f.splits, s.user ∈ (applyExpense b e).map Prod.fst := by
      rw [applyExpense_map_fst]
      exact fun f hf => hdom f (List.mem_cons_of_mem _ hf)
    rw [List.foldl_cons, ih _ hnd' hdom', entSum_applyExpense b e x hnd hpay hsp,
      sumBy_cons, sumBy_cons]
    ring

theorem map_fst_init (members : List String) :
    ((members.map fun m => (m, (0 : ℚ))).map Prod.fst) = members := by
  rw [List.map_map]
  exact List.map_id members

theorem entSum_init (members : List String) (x : String) :
    entSum (members.map fun m => (m, (0 : ℚ))) x = 0 := by
  induction members with
  | nil => rfl
  | cons m t ih =>
    rw [List.map_cons, entSum_cons, ih]
    dsimp only
    split <;> ring

/-- Raw net balance of `calculateGroupBalances`: the payer of each expense
gains its amount and every split member loses their share, independent of
the settled flags. -/
theorem calculateGroupBalances_entSum (expenses : List Expense)
    (members : List String) (x : String) (hnd : members.Nodup)
    (hdom : ∀ e ∈ expenses, e.paidBy ∈ members ∧
      ∀ s ∈ e.splits, s.user ∈ members) :
    entSum (calculateGroupBalances expenses members).1 x =
      sumBy expenses (fun e => if e.paidBy = x then e.amount else 0) -
      sumBy expenses
        (fun e => sumBy e.splits fun s => if s.user = x then s.share else 0) := by
  rw [calculateGroupBalances]
  dsimp only
  rw [entSum_foldl_applyExpense expenses _ x
    (by rw [map_fst_init]; exact hnd)
    (by rw [map_fst_init]; exact hdom), entSum_init]
  ring

/-! ## Fold-to-sum reshaping lemmas for the statistics endpoints -/

theorem foldl_step_eq_sumBy (l : List α) (g : α → ℚ) (step : ℚ → α → ℚ)
    (hstep : ∀ t x, step t x = t + g x) (a : ℚ) :
    l.foldl step a = a + sumBy l g := by
  induction l generalizing a with
  | nil =>
    rw [List.foldl_nil, show sumBy ([] : List α) g = 0 from rfl]
    ring
  | cons p t ih =>
    rw [List.foldl_cons, hstep, ih, sumBy_cons]
    ring

theorem foldl_pair_step_eq (l : List α) (f g : α → ℚ)
    (step : ℚ × ℚ → α → ℚ × ℚ)
    (hstep : ∀ t x, step t x = (t.1 + f x, t.2 + g x)) (a : ℚ × ℚ) :
    l.foldl step a = (a.1 + sumBy l f, a.2 + sumBy l g) := by
  induction l generalizing a with
  | nil =>
    rw [List.foldl_nil, show sumBy ([] : List α) f = 0 from rfl,
      show sumBy ([] : List α) g = 0 from rfl]
    rw [add_zero, add_zero]
  | cons p t ih =>
    rw [List.foldl_cons, hstep, ih, sumBy_cons, sumBy_cons]
    dsimp only
    rw [add_assoc, add_assoc]

/-- `calculateUserBalance` as two plain sums: `userOwes` adds the share of
the user's first matching split per expense, `userIsOwed` adds the amount
of each expense the user paid. -/
theorem calculateUserBalance_eq (expenses : List Expense) (userId : String) :
    calculateUserBalance expenses userId =
      (sumBy expenses fun e =>
        match e.splits.find? fun s => s.user == userId with
        | some s => s.share
        | none => 0,
       sumBy expenses fun e => if e.paidBy = userId then e.amount else 0) := by
  have hstep : ∀ (acc : ℚ × ℚ) (e : Expense),
      (let isOwed := if e.paidBy = userId then acc.2 + e.amount else acc.2
       let owes := match e.splits.find? fun s => s.user == userId with
         | some s => acc.1 + s.share
         | none => acc.1
       ((owes, isOwed) : ℚ × ℚ)) =
      (acc.1 + (match e.splits.find? fun s => s.user == userId with
        | some s => s.share
        | none => 0),
       acc.2 + (if e.paidBy = userId then e.amount else 0)) := by
    intro acc e
    dsimp only
    rcases hf : e.splits.find? fun s => s.user == userId with _ | s <;>
      by_cases hp : e.paidBy = userId <;> simp [hf, hp]
  rw [calculateUserBalance,
    foldl_pair_step_eq expenses
      (fun e => match e.splits.find? fun s => s.user == userId with
        | some s => s.share
        | none => 0)
      (fun e => if e.paidBy = userId then e.amount else 0)
      (fun acc e =>
        let isOwed := if e.paidBy = userId then acc.2 + e.amount else acc.2
        let owes := match e.splits.find? fun s => s.user == userId with
          | some s => acc.1 + s.share
          | none => acc.1
        (owes, isOwed))
      hstep (0, 0)]
  rw [zero_add, zero_add]

theorem sumBy_congr {l : List α} {f g : α → ℚ}
    (h : ∀ x ∈ l, f x = g x) : sumBy l f = sumBy l g := by
  induction l with
  | nil => rfl
  | cons a t ih =>
    rw [sumBy_cons, sumBy_cons, h a (List.mem_cons_self _ _),
      ih fun x hx => h x (List.mem_cons_of_mem _ hx)]

theorem sumBy_map (l : List α) (f : α → β) (g : β → ℚ) :
    sumBy (l.map f) g = sumBy l fun x => g (f x) := by
  rw [sumBy, sumBy, List.map_map]
  rfl

theorem sumBy_filter (l : List α) (p : α → Bool) (f : α → ℚ) :
    sumBy (l.filter p) f = sumBy l fun x => if p x then f x else 0 := by
  induction l with
  | nil => rfl
  | cons a t ih =>
    rw [List.filter_cons, sumBy_cons]
    by_cases h : p a
    · rw [if_pos h, sumBy_cons, ih, if_pos h]
    · rw [if_neg h, ih, if_neg h]
      ring

/-- `getUserStatsV1` totals: each group's balance pair is rounded to two
decimals *before* accumulation, and the accumulated totals are rounded
again at output. -/
theorem getUserStatsV1_eq (groups : List (List Expense)) (u : String) :
    getUserStatsV1 groups u =
      (round2 (sumBy groups fun g => round2 (calculateUserBalance g u).2),
       round2 (sumBy groups fun g => round2 (calculateUserBalance g u).1),
       round2 ((sumBy groups fun g => round2 (calculateUserBalance g u).2) -
         (sumBy groups fun g => round2 (calculateUserBalance g u).1))) := by
  rw [getUserStatsV1]
  rw [foldl_pair_step_eq groups
    (fun g => round2 (calculateUserBalance g u).2)
    (fun g => round2 (calculateUserBalance g u).1)
    (fun acc g =>
      let ub := calculateUserBalance g u
      (acc.1 + round2 ub.2, acc.2 + round2 ub.1))
    (fun acc g => rfl) (0, 0)]
  dsimp only
  rw [zero_add, zero_add]

/-- `getGroupBalanceSummary` on a nonempty expense list: every reported
value is the two-decimal rounding, applied once at output, of a total
accumulated at full precision over the expenses. -/
theorem getGroupBalanceSummary_eq (expenses : List Expense) (v : String)
    (hne : expenses ≠ []) :
    getGroupBalanceSummary expenses v =
      (round2 ((calculateUserBalance expenses v).1),
       round2 (sumBy expenses fun e => if e.paidBy = v then e.amount else 0),
       round2 ((sumBy (expenses.filter fun e =>
             e.paidBy != v && e.splits.any fun s => s.user == v && s.settled)
           fun e =>
             match e.splits.find? fun s => s.user == v && s.settled with
             | some s => s.share
             | none => 0) +
         (sumBy (expenses.filter fun e => e.paidBy == v) fun e =>
           sumBy (e.splits.filter fun s => s.user != v && s.settled)
             SplitRec.share)),
       round2 (sumBy (expenses.filter fun e => e.paidBy != v) fun e =>
         match e.splits.find? fun s => s.user == v && !s.settled with
         | some s => s.share
         | none => 0),
       round2 (sumBy (expenses.filter fun e => e.paidBy == v) fun e =>
         sumBy (e.splits.filter fun s => s.user != v && !s.settled)
           SplitRec.share)) := by
  rw [getGroupBalanceSummary, if_neg hne]
  have hinner : ∀ (p : SplitRec → Prop) [DecidablePred p] (splits : List SplitRec),
      splits.foldl (fun acc s => if p s then acc + s.share else acc) 0 =
        sumBy splits fun s => if p s then s.share else 0 := by
    intro p _ splits
    rw [foldl_step_eq_sumBy splits (fun s => if p s then s.share else 0) _
      (fun t s => by dsimp only; split <;> ring) 0, zero_add]
  have hpaid : expenses.foldl
      (fun total e => if e.paidBy = v then total + e.amount else total) 0 =
        sumBy expenses fun e => if e.paidBy = v then e.amount else 0 := by
    rw [foldl_step_eq_sumBy expenses
      (fun e => if e.paidBy = v then e.amount else 0) _
      (fun t e => by dsimp only; split <;> ring) 0, zero_add]
  have hfind : ∀ (p : SplitRec → Bool) (l : List Expense),
      l.foldl (fun total e =>
        match e.splits.find? p with
        | some s => total + s.share
        | none => total) (0 : ℚ) =
        sumBy l fun e =>
          match e.splits.find? p with
          | some s => s.share
          | none => 0 := by
    intro p l
    rw [foldl_step_eq_sumBy l
      (fun e => match e.splits.find? p with
        | some s => s.share
        | none => 0) _
      (fun t e => by dsimp only; rcases e.splits.find? p with _ | s <;> simp) 0,
      zero_add]
  dsimp only
  rw [hpaid, hfind, hfind]
  have h1 : (expenses.filter fun e => e.paidBy == v).foldl
      (fun total e =>
        total + e.splits.foldl
          (fun acc s => if s.user ≠ v ∧ s.settled then acc + s.share else acc)
          0) (0 : ℚ) =
      sumBy (expenses.filter fun e => e.paidBy == v) fun e =>
        sumBy (e.splits.filter fun s => s.user != v && s.settled)
          SplitRec.share := by
    rw [foldl_step_eq_sumBy _
      (fun e => sumBy (e.splits.filter fun s => s.user != v && s.settled)
        SplitRec.share) _
      (fun t e => by
        dsimp only
        rw [hinner (fun s => s.user ≠ v ∧ s.settled) e.splits, sumBy_filter]
        exact congrArg (fun z => t + z) (sumBy_congr fun s _ => by
          by_cases hs : s.user = v <;> by_cases hset : s.settled <;>
            simp [hs, hset])) 0, zero_add]
  have h2 : (expenses.filter fun e => e.paidBy == v).foldl
      (fun total e =>
        total + e.splits.foldl
          (fun acc s => if s.user ≠ v ∧ ¬s.settled then acc + s.share else acc)
          0) (0 : ℚ) =
      sumBy (expenses.filter fun e => e.paidBy == v) fun e =>
        sumBy (e.splits.filter fun s => s.user != v && !s.settled)
          SplitRec.share := by
    rw [foldl_step_eq_sumBy _
      (fun e => sumBy (e.splits.filter fun s => s.user != v && !s.settled)
        SplitRec.share) _
      (fun t e => by
        dsimp only
        rw [hinner (fun s => s.user ≠ v ∧ ¬s.settled) e.splits, sumBy_filter]
        exact congrArg (fun z => t + z) (sumBy_congr fun s _ => by
          by_cases hs : s.user = v <;> by_cases hset : s.settled <;>
            simp [hs, hset])) 0, zero_add]
  rw [h1, h2]

/-! ## Claim theorems -/

/-- C1 counterexample: the allocation `calculateSplits(0.004, 'equal',
['A'])` is valid in the claim's sense (positive amount, non-empty
participant list) and succeeds, but the single returned share is 0.00, so
the shares do not sum to the amount. -/
theorem c1_equal_split_claim_counterexample :
    calculateSplits (1 / 250) "equal" ["A"] [] = .ok [⟨"A", 0⟩] ∧
      sumBy [(⟨"A", 0⟩ : Split)] Split.share ≠ 1 / 250 := by
  constructor
  · rw [calculateSplits, if_neg (by norm_num : ¬(1 / 250 : ℚ) ≤ 0),
      if_neg (by simp : ¬(["A"] : List String) = [])]
    show Except.ok (calculateEqualSplit (1 / 250) ["A"]) = _
    norm_num [calculateEqualSplit, round2, round_eq]
  · norm_num [sumBy]

/-- C1 (amended): for every `equal` allocation with a positive whole-cent
amount and a non-empty participant list, the allocator divides the amount
evenly, rounds each share to 2 decimals, assigns the entire rounding
remainder to the first participant in iteration order, returns exactly one
share per participant, and the shares sum to the amount exactly. -/
theorem c1_equal_split_amended (amount : ℚ) (u0 : String) (rest : List String)
    (details : List (String × ℚ)) (hpos : 0 < amount) (hcents : isCents amount) :
    ∃ splits, calculateSplits amount "equal" (u0 :: rest) details = .ok splits ∧
      splits.map Split.user = u0 :: rest ∧
      splits.length = (u0 :: rest).length ∧
      sumBy splits Split.share = amount ∧
      (∀ s ∈ splits.tail, s.share = round2 (amount / ((u0 :: rest).length : ℚ))) ∧
      splits.head? = some ⟨u0, round2 (amount / ((u0 :: rest).length : ℚ)) +
        (amount - round2 (amount / ((u0 :: rest).length : ℚ)) *
          ((u0 :: rest).length : ℚ))⟩ := by
  refine ⟨calculateEqualSplit amount (u0 :: rest), ?_, ?_, ?_, ?_, ?_, ?_⟩
  · rw [calculateSplits, if_neg (not_le.mpr hpos),
      if_neg (List.cons_ne_nil u0 rest)]
  · rw [calculateEqualSplit_eq amount u0 rest hcents]
    rw [List.map_cons, List.map_map]
    exact congrArg (u0 :: ·) (List.map_id rest)
  · rw [calculateEqualSplit_eq amount u0 rest hcents]
    simp
  · rw [calculateEqualSplit_eq amount u0 rest hcents]
    rw [sumBy_cons]
    dsimp only
    rw [sumBy_map, sumBy_const]
    ring
  · rw [calculateEqualSplit_eq amount u0 rest hcents]
    intro s hs
    rw [List.tail_cons, List.mem_map] at hs
    obtain ⟨u, hu, rfl⟩ := hs
    rfl
  · rw [calculateEqualSplit_eq amount u0 rest hcents]
    rw [List.head?_cons]
    congr 2
    push_cast [List.length_cons]
    ring

/-- C1 witness: the amended statement applied at amount 100 with three
participants. -/
theorem c1_equal_split_amended_witness :
    (0 : ℚ) < 100 ∧ isCents 100 ∧
      ∃ splits, calculateSplits 100 "equal" ["A", "B", "C"] [] = .ok splits ∧
        splits.map Split.user = ["A", "B", "C"] ∧
        splits.length = (["A", "B", "C"] : List String).length ∧
        sumBy splits Split.share = 100 ∧
        (∀ s ∈ splits.tail,
          s.share = round2 (100 / ((["A", "B", "C"] : List String).length : ℚ))) ∧
        splits.head? = some ⟨"A",
          round2 (100 / ((["A", "B", "C"] : List String).length : ℚ)) +
          (100 - round2 (100 / ((["A", "B", "C"] : List String).length : ℚ)) *
            ((["A", "B", "C"] : List String).length : ℚ))⟩ :=
  ⟨by norm_num, ⟨10000, by norm_num⟩,
    c1_equal_split_amended 100 "A" ["B", "C"] [] (by norm_num)
      ⟨10000, by norm_num⟩⟩

/-- C2 counterexample: percentages 33.33 / 33.33 / 33.34 sum to exactly 100,
but on amount 1 every share rounds to 0.33 and no remainder is reassigned,
so the shares sum to 0.99, not 1. -/
theorem c2_percentage_claim_counterexample :
    (3333 / 100 + 3333 / 100 + 3334 / 100 : ℚ) = 100 ∧
    calculateSplits 1 "percentage" ["A", "B", "C"]
        [("A", 3333 / 100), ("B", 3333 / 100), ("C", 3334 / 100)] =
      .ok [⟨"A", 33 / 100⟩, ⟨"B", 33 / 100⟩, ⟨"C", 33 / 100⟩] ∧
    sumBy [(⟨"A", 33 / 100⟩ : Split), ⟨"B", 33 / 100⟩, ⟨"C", 33 / 100⟩]
        Split.share = 99 / 100 ∧
    (99 / 100 : ℚ) ≠ 1 := by
  refine ⟨by norm_num, ?_, by norm_num [sumBy], by norm_num⟩
  rw [calculateSplits, if_neg (by norm_num : ¬(1 : ℚ) ≤ 0),
    if_neg (by simp : ¬(["A", "B", "C"] : List String) = [])]
  show calculatePercentageSplit 1
    [("A", 3333 / 100), ("B", 3333 / 100), ("C", 3334 / 100)] = _
  norm_num [calculatePercentageSplit, percLoop, round2, round_eq]

/-- C2 (amended): for every `percentage` allocation with positive amount,
non-empty users, nonnegative percentages summing to 100 within 0.01, each
returned share is `amount * percentage / 100` rounded to 2 decimals, one
per detail key in iteration order; no rounding remainder is reassigned to
any participant, so the shares need not sum to the amount. -/
theorem c2_percentage_amended (amount : ℚ) (users : List String)
    (d : List (String × ℚ)) (hpos : 0 < amount) (hu : users ≠ [])
    (hnn : ∀ p ∈ d, 0 ≤ p.2)
    (htot : |sumBy d Prod.snd - 100| ≤ 1 / 100) :
    calculateSplits amount "percentage" users d =
      .ok (d.map fun p => ⟨p.1, round2 (amount * p.2 / 100)⟩) := by
  rw [calculateSplits, if_neg (not_le.mpr hpos), if_neg hu]
  exact calculatePercentageSplit_ok amount d hnn htot

/-- C2 witness: the amended statement applied at amount 1 and the
33.33 / 33.33 / 33.34 percentage details. -/
theorem c2_percentage_amended_witness :
    (0 : ℚ) < 1 ∧ (["A", "B", "C"] : List String) ≠ [] ∧
    (∀ p ∈ ([("A", 3333 / 100), ("B", 3333 / 100), ("C", 3334 / 100)] :
        List (String × ℚ)), 0 ≤ p.2) ∧
    |sumBy ([("A", 3333 / 100), ("B", 3333 / 100), ("C", 3334 / 100)] :
        List (String × ℚ)) Prod.snd - 100| ≤ 1 / 100 ∧
    calculateSplits 1 "percentage" ["A", "B", "C"]
        [("A", 3333 / 100), ("B", 3333 / 100), ("C", 3334 / 100)] =
      .ok (([("A", 3333 / 100), ("B", 3333 / 100), ("C", 3334 / 100)] :
          List (String × ℚ)).map fun p => ⟨p.1, round2 (1 * p.2 / 100)⟩) :=
  ⟨by norm_num, by simp, by norm_num [sumBy], by norm_num [sumBy],
    c2_percentage_amended 1 ["A", "B", "C"] _ (by norm_num) (by simp)
      (by norm_num [sumBy]) (by norm_num [sumBy])⟩

/-- C3 counterexample: for the balances mapping `{A: 100}` (a creditor with
no debtors) the Debt Simplifier returns no transactions, so A's net settled
amount is 0, which is not within any rounding tolerance of the original
balance 100. -/
theorem c3_conservation_counterexample :
    simplifyDebts [("A", 100)] = [] ∧
    netOf ([] : List Txn) "A" = 0 ∧
    ¬|netOf ([] : List Txn) "A" - 100| ≤ 1 / 100 := by
  refine ⟨?_, rfl, by norm_num [netOf, sumBy]⟩
  have h1 : creditorsOf [("A", (100 : ℚ))] = [("A", 100)] := by
    norm_num [creditorsOf, List.filterMap_cons, round2, round_eq]
  have h2 : debtorsOf [("A", (100 : ℚ))] = [] := by
    norm_num [debtorsOf, List.filterMap_cons, round2, round_eq]
  rw [simplifyDebts, h1, h2, sortByAmountDesc, sortByAmountDesc,
    List.mergeSort_singleton, List.mergeSort_nil]
  rw [settleLoop]

/-- C3 (amended): for every balances mapping with unique keys whose
2-decimal-rounded balances sum to exactly zero, each participant's total
received minus total paid over the returned transactions equals their
rounded balance exactly, hence is within half a cent of their original
signed balance. -/
theorem c3_conservation_amended (balances : List (String × ℚ))
    (hnd : (balances.map Prod.fst).Nodup)
    (hzero : (sumBy balances fun p => round2 p.2) = 0)
    (u : String) (b : ℚ) (hmem : (u, b) ∈ balances) :
    netOf (simplifyDebts balances) u = round2 b ∧
      |netOf (simplifyDebts balances) u - b| ≤ 1 / 200 := by
  have h := simplifyDebts_netOf hnd hzero hmem
  exact ⟨h, by rw [h]; exact abs_round2_sub_le b⟩

/-- C3 witness: conservation applied to the balances `{A: 30, B: 20,
C: -50}`. -/
theorem c3_conservation_amended_witness :
    ((([("A", 30), ("B", 20), ("C", -50)] : List (String × ℚ)).map
        Prod.fst).Nodup) ∧
    (sumBy ([("A", 30), ("B", 20), ("C", -50)] : List (String × ℚ))
        fun p => round2 p.2) = 0 ∧
    netOf (simplifyDebts [("A", 30), ("B", 20), ("C", -50)]) "C" =
      round2 (-50) ∧
    |netOf (simplifyDebts [("A", 30), ("B", 20), ("C", -50)]) "C" - (-50)| ≤
      1 / 200 := by
  refine ⟨by decide, by norm_num [sumBy, round2, round_eq], ?_, ?_⟩
  · exact (c3_conservation_amended _ (by decide)
      (by norm_num [sumBy, round2, round_eq]) "C" (-50)
      (by norm_num)).1
  · exact (c3_conservation_amended _ (by decide)
      (by norm_num [sumBy, round2, round_eq]) "C" (-50)
      (by norm_num)).2

/-- C4: the raw net balance adds each expense's amount to its payer and
subtracts each split share from its member, ignoring settled flags; and on
the concrete example (A pays 100, split 50/50 with B) the balances are
A:+50, B:-50 and the simplified plan is the single transaction
B → A of 50. -/
theorem c4_balance_aggregation (expenses : List Expense)
    (members : List String) (x : String) (hnd : members.Nodup)
    (hdom : ∀ e ∈ expenses, e.paidBy ∈ members ∧
      ∀ s ∈ e.splits, s.user ∈ members) :
    entSum (calculateGroupBalances expenses members).1 x =
      sumBy expenses (fun e => if e.paidBy = x then e.amount else 0) -
      sumBy expenses
        (fun e => sumBy e.splits fun s => if s.user = x then s.share else 0) ∧
    calculateGroupBalances
        [⟨"A", 100, [⟨"A", 50, false⟩, ⟨"B", 50, false⟩]⟩] ["A", "B"] =
      ([("A", 50), ("B", -50)], [⟨"B", "A", 50⟩]) := by
  refine ⟨calculateGroupBalances_entSum expenses members x hnd hdom, ?_⟩
  have hb : (calculateGroupBalances
      [⟨"A", 100, [⟨"A", 50, false⟩, ⟨"B", 50, false⟩]⟩] ["A", "B"]).1 =
      [("A", 50), ("B", -50)] := by
    simp +decide only [calculateGroupBalances, applyExpense, bumpKey,
      List.foldl, List.map,
      show ("A" = "A") = True from by simp,
      show ("B" = "A") = False from by simp,
      show ("A" = "B") = False from by simp,
      show ("B" = "B") = True from by simp]
    norm_num
  have h2 : (calculateGroupBalances
      [⟨"A", 100, [⟨"A", 50, false⟩, ⟨"B", 50, false⟩]⟩] ["A", "B"]).2 =
      simplifyDebts ((calculateGroupBalances
        [⟨"A", 100, [⟨"A", 50, false⟩, ⟨"B", 50, false⟩]⟩] ["A", "B"]).1) :=
    rfl
  refine Prod.ext hb ?_
  rw [h2, hb]
  have hc : creditorsOf [("A", (50 : ℚ)), ("B", -50)] = [("A", 50)] := by
    norm_num [creditorsOf, List.filterMap_cons, round2, round_eq]
  have hd : debtorsOf [("A", (50 : ℚ)), ("B", -50)] = [("B", 50)] := by
    norm_num [debtorsOf, List.filterMap_cons, round2, round_eq]
  rw [simplifyDebts, hc, hd, sortByAmountDesc, sortByAmountDesc,
    List.mergeSort_singleton, List.mergeSort_singleton]
  rw [settleLoop]
  norm_num
  constructor
  · norm_num [round2, round_eq]
  · rw [settleLoop]

/-- C4 witness: the aggregation formula applied to the concrete example at
participant A. -/
theorem c4_balance_aggregation_witness :
    (["A", "B"] : List String).Nodup ∧
    entSum (calculateGroupBalances
        [⟨"A", 100, [⟨"A", 50, false⟩, ⟨"B", 50, false⟩]⟩] ["A", "B"]).1 "A" =
      sumBy [(⟨"A", 100, [⟨"A", 50, false⟩, ⟨"B", 50, false⟩]⟩ : Expense)]
        (fun e => if e.paidBy = "A" then e.amount else 0) -
      sumBy [(⟨"A", 100, [⟨"A", 50, false⟩, ⟨"B", 50, false⟩]⟩ : Expense)]
        (fun e => sumBy e.splits fun s => if s.user = "A" then s.share else 0) :=
  ⟨by decide,
    (c4_balance_aggregation _ _ "A" (by decide) (by decide)).1⟩

/-- C5 counterexample: the balance 0.008 is zero within 0.01, yet it rounds
to 0.01, so participant A enters the creditor list and appears as the `to`
party of a transaction. -/
theorem c5_zero_exclusion_counterexample :
    |(1 / 125 : ℚ)| ≤ 1 / 100 ∧
    simplifyDebts [("A", 1 / 125), ("B", -(1 / 125))] = [⟨"B", "A", 1 / 100⟩] ∧
    (⟨"B", "A", (1 / 100 : ℚ)⟩ : Txn).to_ = "A" := by
  refine ⟨by rw [abs_of_pos] <;> norm_num, ?_, rfl⟩
  have h1 : creditorsOf [("A", (1 / 125 : ℚ)), ("B", -(1 / 125))] =
      [("A", 1 / 100)] := by
    norm_num [creditorsOf, List.filterMap_cons, round2, round_eq]
  have h2 : debtorsOf [("A", (1 / 125 : ℚ)), ("B", -(1 / 125))] =
      [("B", 1 / 100)] := by
    norm_num [debtorsOf, List.filterMap_cons, round2, round_eq]
  rw [simplifyDebts, h1, h2, sortByAmountDesc, sortByAmountDesc,
    List.mergeSort_singleton, List.mergeSort_singleton]
  rw [settleLoop]
  norm_num
  constructor
  · norm_num [round2, round_eq]
  · rw [settleLoop]

/-- C5 (amended): a participant whose balance rounds to zero at two
decimals is excluded from the creditor list and the debtor list, and never
appears as the `from` or `to` party of any returned transaction (unique
balance keys assumed). -/
theorem c5_zero_exclusion_amended (balances : List (String × ℚ))
    (hnd : (balances.map Prod.fst).Nodup) (u : String) (b : ℚ)
    (hmem : (u, b) ∈ balances) (hb : round2 b = 0) :
    u ∉ (creditorsOf balances).map Prod.fst ∧
    u ∉ (debtorsOf balances).map Prod.fst ∧
    ∀ t ∈ simplifyDebts balances, t.from_ ≠ u ∧ t.to_ ≠ u := by
  refine ⟨?_, ?_, simplifyDebts_zero_excluded hnd hmem hb⟩
  · intro hu
    obtain ⟨b', hb', hpos⟩ := of_mem_creditors_key hu
    rw [snd_eq_of_nodup hnd hmem hb'] at hb
    rw [hb] at hpos
    exact absurd hpos (by norm_num)
  · intro hu
    obtain ⟨b', hb', hneg⟩ := of_mem_debtors_key hu
    rw [snd_eq_of_nodup hnd hmem hb'] at hb
    rw [hb] at hneg
    exact absurd hneg (by norm_num)

/-- C5 witness: A's balance 0.004 rounds to zero, so A appears in neither
list nor in any transaction of `{A: 0.004, B: 50, C: -50}`. -/
theorem c5_zero_exclusion_amended_witness :
    round2 (1 / 250) = 0 ∧
    ("A" ∉ (creditorsOf [("A", 1 / 250), ("B", 50), ("C", -50)]).map
        Prod.fst ∧
     "A" ∉ (debtorsOf [("A", 1 / 250), ("B", 50), ("C", -50)]).map
        Prod.fst ∧
     ∀ t ∈ simplifyDebts [("A", 1 / 250), ("B", 50), ("C", -50)],
       t.from_ ≠ "A" ∧ t.to_ ≠ "A") :=
  ⟨by norm_num [round2, round_eq],
    c5_zero_exclusion_amended _ (by decide) "A" (1 / 250)
      (List.mem_cons_self _ _) (by norm_num [round2, round_eq])⟩

/-- C6 counterexample: with two groups in each of which the user is owed
0.004, `getUserStats` reports `totalOwed = 0` because each per-group value
is rounded to two decimals before accumulation, whereas full-precision
accumulation rounded once at output gives 0.01. -/
theorem c6_rounding_counterexample :
    getUserStatsV1
        [[⟨"U", 1 / 250, [⟨"U", 1 / 250, false⟩]⟩],
         [⟨"U", 1 / 250, [⟨"U", 1 / 250, false⟩]⟩]] "U" = (0, 0, 0) ∧
    round2 ((calculateUserBalance [⟨"U", 1 / 250, [⟨"U", 1 / 250, false⟩]⟩]
          "U").2 +
        (calculateUserBalance [⟨"U", 1 / 250, [⟨"U", 1 / 250, false⟩]⟩]
          "U").2) = 1 / 100 ∧
    (0 : ℚ) ≠ 1 / 100 := by
  refine ⟨?_, ?_, by norm_num⟩
  · norm_num [getUserStatsV1, calculateUserBalance, List.foldl, List.find?,
      round2, round_eq]
  · norm_num [calculateUserBalance, List.foldl, List.find?, round2, round_eq]

/-- C6 (amended): `getGroupBalanceSummary` accumulates at full precision
and rounds each reported value exactly once at output; but `getUserStats`
rounds every per-group subtotal to two decimals before accumulating and
rounds the totals again at output, and `calculateGroupBalances` returns
its balances entirely unrounded (e.g. a balance of 0.001 is returned
as-is). -/
theorem c6_rounding_amended (groups : List (List Expense))
    (expenses : List Expense) (u v : String) (hne : expenses ≠ []) :
    getUserStatsV1 groups u =
      (round2 (sumBy groups fun g => round2 (calculateUserBalance g u).2),
       round2 (sumBy groups fun g => round2 (calculateUserBalance g u).1),
       round2 ((sumBy groups fun g => round2 (calculateUserBalance g u).2) -
         (sumBy groups fun g => round2 (calculateUserBalance g u).1))) ∧
    getGroupBalanceSummary expenses v =
      (round2 ((calculateUserBalance expenses v).1),
       round2 (sumBy expenses fun e => if e.paidBy = v then e.amount else 0),
       round2 ((sumBy (expenses.filter fun e =>
             e.paidBy != v && e.splits.any fun s => s.user == v && s.settled)
           fun e =>
             match e.splits.find? fun s => s.user == v && s.settled with
             | some s => s.share
             | none => 0) +
         (sumBy (expenses.filter fun e => e.paidBy == v) fun e =>
           sumBy (e.splits.filter fun s => s.user != v && s.settled)
             SplitRec.share)),
       round2 (sumBy (expenses.filter fun e => e.paidBy != v) fun e =>
         match e.splits.find? fun s => s.user == v && !s.settled with
         | some s => s.share
         | none => 0),
       round2 (sumBy (expenses.filter fun e => e.paidBy == v) fun e =>
         sumBy (e.splits.filter fun s => s.user != v && !s.settled)
           SplitRec.share)) ∧
    (calculateGroupBalances [⟨"A", 1 / 1000, [⟨"B", 1 / 1000, false⟩]⟩]
        ["A", "B"]).1 = [("A", 1 / 1000), ("B", -(1 / 1000))] ∧
    round2 (1 / 1000) ≠ (1 / 1000 : ℚ) := by
  refine ⟨getUserStatsV1_eq groups u, getGroupBalanceSummary_eq expenses v hne,
    ?_, by norm_num [round2, round_eq]⟩
  simp +decide only [calculateGroupBalances, applyExpense, bumpKey,
    List.foldl, List.map,
    show ("A" = "A") = True from by simp,
    show ("B" = "A") = False from by simp,
    show ("A" = "B") = False from by simp,
    show ("B" = "B") = True from by simp]
  norm_num

/-- C6 witness: the amended statement applied to a one-group, one-expense
configuration. -/
theorem c6_rounding_amended_witness :
    ([(⟨"A", 10, [⟨"A", 5, false⟩, ⟨"B", 5, true⟩]⟩ : Expense)] ≠
      ([] : List Expense)) ∧
    getGroupBalanceSummary [⟨"A", 10, [⟨"A", 5, false⟩, ⟨"B", 5, true⟩]⟩]
        "A" =
      (round2 ((calculateUserBalance
          [⟨"A", 10, [⟨"A", 5, false⟩, ⟨"B", 5, true⟩]⟩] "A").1),
       round2 (sumBy [(⟨"A", 10, [⟨"A", 5, false⟩, ⟨"B", 5, true⟩]⟩ :
           Expense)] fun e => if e.paidBy = "A" then e.amount else 0),
       round2 ((sumBy (([(⟨"A", 10, [⟨"A", 5, false⟩, ⟨"B", 5, true⟩]⟩ :
             Expense)]).filter fun e =>
             e.paidBy != "A" &&
               e.splits.any fun s => s.user == "A" && s.settled)
           fun e =>
             match e.splits.find? fun s => s.user == "A" && s.settled with
             | some s => s.share
             | none => 0) +
         (sumBy (([(⟨"A", 10, [⟨"A", 5, false⟩, ⟨"B", 5, true⟩]⟩ :
             Expense)]).filter fun e => e.paidBy == "A") fun e =>
           sumBy (e.splits.filter fun s => s.user != "A" && s.settled)
             SplitRec.share)),
       round2 (sumBy (([(⟨"A", 10, [⟨"A", 5, false⟩, ⟨"B", 5, true⟩]⟩ :
           Expense)]).filter fun e => e.paidBy != "A") fun e =>
         match e.splits.find? fun s => s.user == "A" && !s.settled with
         | some s => s.share
         | none => 0),
       round2 (sumBy (([(⟨"A", 10, [⟨"A", 5, false⟩, ⟨"B", 5, true⟩]⟩ :
           Expense)]).filter fun e => e.paidBy == "A") fun e =>
         sumBy (e.splits.filter fun s => s.user != "A" && !s.settled)
           SplitRec.share)) :=
  ⟨by simp,
    (c6_rounding_amended [] [⟨"A", 10, [⟨"A", 5, false⟩, ⟨"B", 5, true⟩]⟩]
      "A" "A" (by simp)).2.1⟩

/-- C7: evaluating the user-statistics `totalOthersPaidYou` computation at
a failing input.  The user paid two expenses in two groups; the settled
splits of other participants have shares 33 + 33 (group 1) and 5
(group 2).  The spec-mandated value is 71, but the code reports 5: per
expense only the first settled split is counted (33 is dropped), and the
per-group assignment overwrites instead of accumulating (group 1's value
is lost entirely). -/
theorem c7_others_settled_eval :
    totalOthersPaidYouStats
        [[⟨"U", 100, [⟨"U", 34, false⟩, ⟨"A", 33, true⟩, ⟨"B", 33, true⟩]⟩],
         [⟨"U", 10, [⟨"U", 5, false⟩, ⟨"A", 5, true⟩]⟩]] "U" = 5 ∧
    specOthersSettledToPayer
        [[⟨"U", 100, [⟨"U", 34, false⟩, ⟨"A", 33, true⟩, ⟨"B", 33, true⟩]⟩],
         [⟨"U", 10, [⟨"U", 5, false⟩, ⟨"A", 5, true⟩]⟩]] "U" = 71 ∧
    (5 : ℚ) ≠ 71 := by
  refine ⟨?_, ?_, by norm_num⟩
  · simp +decide only [totalOthersPaidYouStats, othersPaidYouGroup,
      List.filter, List.find?, List.foldl, List.any,
      show ("A" != "U") = true from rfl, show ("B" != "U") = true from rfl,
      show ("U" != "U") = false from rfl]
    norm_num
  · simp +decide only [specOthersSettledToPayer, sumBy, List.filter, List.map]
    norm_num

/-- C8 counterexample: the declared percentages `{A: -50, B: 40}` sum to
-10, deviating from 100 by 110 > 0.01, yet the allocator fails with the
per-user error `Invalid percentage for user A` — raised inside the loop
before the total is ever checked — which references no total percentage
at all. -/
theorem c8_percentage_total_error_counterexample :
    |sumBy ([("A", -50), ("B", 40)] : List (String × ℚ)) Prod.snd - 100| >
      1 / 100 ∧
    calculateSplits 100 "percentage" ["U"] [("A", -50), ("B", 40)] =
      .error (.invalidPercentage "A") ∧
    CalcError.invalidPercentage "A" ≠
      CalcError.totalPercentageNot100 (-10) := by
  refine ⟨by norm_num [sumBy], ?_, fun h => CalcError.noConfusion h⟩
  rw [calculateSplits, if_neg (by norm_num : ¬(100 : ℚ) ≤ 0),
    if_neg (by simp : ¬(["U"] : List String) = [])]
  show calculatePercentageSplit 100 [("A", -50), ("B", 40)] = _
  rw [calculatePercentageSplit, percLoop.eq_def]
  norm_num

/-- C8 (amended): a `percentage` allocation with positive amount, non-empty
users and nonnegative declared percentages whose total deviates from 100
by more than 0.01 fails with the error that carries that invalid total
(the JavaScript message interpolates it), and no splits are returned.  (A
negative declared percentage instead fails earlier, inside the loop, with
a per-user error that references no total.) -/
theorem c8_percentage_total_error (amount : ℚ) (users : List String)
    (d : List (String × ℚ)) (hpos : 0 < amount) (hu : users ≠ [])
    (hnn : ∀ p ∈ d, 0 ≤ p.2)
    (htot : |sumBy d Prod.snd - 100| > 1 / 100) :
    calculateSplits amount "percentage" users d =
      .error (.totalPercentageNot100 (sumBy d Prod.snd)) := by
  rw [calculateSplits, if_neg (not_le.mpr hpos), if_neg hu]
  exact calculatePercentageSplit_err amount d hnn htot

/-- C8 witness: percentages summing to 90 are rejected with an error
referencing the total 90. -/
theorem c8_percentage_total_error_witness :
    (0 : ℚ) < 100 ∧ (["A"] : List String) ≠ [] ∧
    (∀ p ∈ ([("A", 90)] : List (String × ℚ)), 0 ≤ p.2) ∧
    |sumBy ([("A", 90)] : List (String × ℚ)) Prod.snd - 100| > 1 / 100 ∧
    calculateSplits 100 "percentage" ["A"] [("A", 90)] =
      .error (.totalPercentageNot100
        (sumBy ([("A", 90)] : List (String × ℚ)) Prod.snd)) :=
  ⟨by norm_num, by simp, by norm_num [sumBy], by norm_num [sumBy],
    c8_percentage_total_error 100 ["A"] [("A", 90)] (by norm_num) (by simp)
      (by norm_num [sumBy]) (by norm_num [sumBy])⟩

/-- C9 counterexample: the valid `equal` allocation of amount 0.03 among
five participants succeeds but gives the first participant the negative
share -0.01. -/
theorem c9_share_claim_counterexample :
    calculateSplits (3 / 100) "equal" ["A", "B", "C", "D", "E"] [] =
      .ok [⟨"A", -(1 / 100)⟩, ⟨"B", 1 / 100⟩, ⟨"C", 1 / 100⟩,
        ⟨"D", 1 / 100⟩, ⟨"E", 1 / 100⟩] ∧
    (-(1 / 100) : ℚ) < 0 := by
  refine ⟨?_, by norm_num⟩
  rw [calculateSplits, if_neg (by norm_num : ¬(3 / 100 : ℚ) ≤ 0),
    if_neg (by simp : ¬(["A", "B", "C", "D", "E"] : List String) = [])]
  show Except.ok (calculateEqualSplit (3 / 100) ["A", "B", "C", "D", "E"]) = _
  norm_num [calculateEqualSplit, round2, round_eq]

/-- C9 (amended): on every successful allocation, the returned splits list
one entry per input participant in order (the `users` list for `equal`,
the detail keys for `percentage` and `exact`); all `percentage` and
`exact` shares are nonnegative, and so is every `equal` share except
possibly the first, which absorbs the rounding remainder and can be
negative. -/
theorem c9_success_shape_amended (amount : ℚ) (ty : String)
    (users : List String) (d : List (String × ℚ)) (splits : List Split)
    (h : calculateSplits amount ty users d = .ok splits) :
    (ty = "percentage" → splits.map Split.user = d.map Prod.fst ∧
      ∀ s ∈ splits, 0 ≤ s.share) ∧
    (ty = "exact" → splits.map Split.user = d.map Prod.fst ∧
      ∀ s ∈ splits, 0 ≤ s.share) ∧
    (ty = "equal" → splits.map Split.user = users ∧
      ∀ s ∈ splits.tail, 0 ≤ s.share) := by
  refine ⟨?_, ?_, ?_⟩ <;> intro hty <;> subst hty
  · rw [calculateSplits] at h
    by_cases h1 : amount ≤ 0
    · rw [if_pos h1] at h
      exact Except.noConfusion h
    rw [if_neg h1] at h
    by_cases h2 : users = []
    · rw [if_pos h2] at h
      exact Except.noConfusion h
    rw [if_neg h2] at h
    have hamount : 0 < amount := not_le.mp h1
    obtain ⟨hs, hnn⟩ := calculatePercentageSplit_inv h
    subst hs
    constructor
    · rw [List.map_map]
      rfl
    · intro s hs
      rw [List.mem_map] at hs
      obtain ⟨p, hp, rfl⟩ := hs
      exact round2_nonneg
        (div_nonneg (mul_nonneg (le_of_lt hamount) (hnn p hp)) (by norm_num))
  · rw [calculateSplits] at h
    by_cases h1 : amount ≤ 0
    · rw [if_pos h1] at h
      exact Except.noConfusion h
    rw [if_neg h1] at h
    by_cases h2 : users = []
    · rw [if_pos h2] at h
      exact Except.noConfusion h
    rw [if_neg h2] at h
    obtain ⟨hs, hnn⟩ := validateExactSplit_inv h
    subst hs
    constructor
    · rw [List.map_map]
      rfl
    · intro s hs
      rw [List.mem_map] at hs
      obtain ⟨p, hp, rfl⟩ := hs
      exact hnn p hp
  · rw [calculateSplits] at h
    by_cases h1 : amount ≤ 0
    · rw [if_pos h1] at h
      exact Except.noConfusion h
    rw [if_neg h1] at h
    by_cases h2 : users = []
    · rw [if_pos h2] at h
      exact Except.noConfusion h
    rw [if_neg h2] at h
    have hamount : 0 < amount := not_le.mp h1
    have hs := Except.ok.inj h
    subst hs
    obtain ⟨u0, rest, rfl⟩ := List.exists_cons_of_ne_nil h2
    rw [calculateEqualSplit]
    constructor
    · rw [List.map_cons, List.map_map]
      exact congrArg (u0 :: ·) (List.map_id rest)
    · intro s hs
      rw [List.tail_cons, List.mem_map] at hs
      obtain ⟨u, hu, rfl⟩ := hs
      exact round2_nonneg
        (div_nonneg (le_of_lt hamount) (Nat.cast_nonneg _))

/-- C9 witness: the amended statement applied to a successful percentage
allocation. -/
theorem c9_success_shape_amended_witness :
    calculateSplits 100 "percentage" ["A"] [("A", 100)] = .ok [⟨"A", 100⟩] ∧
    ([(⟨"A", 100⟩ : Split)].map Split.user =
        ([("A", (100 : ℚ))] : List (String × ℚ)).map Prod.fst ∧
      ∀ s ∈ [(⟨"A", 100⟩ : Split)], 0 ≤ s.share) := by
  have h : calculateSplits 100 "percentage" ["A"] [("A", 100)] =
      .ok [⟨"A", 100⟩] := by
    rw [calculateSplits, if_neg (by norm_num : ¬(100 : ℚ) ≤ 0),
      if_neg (by simp : ¬(["A"] : List String) = [])]
    show calculatePercentageSplit 100 [("A", 100)] = _
    norm_num [calculatePercentageSplit, percLoop, round2, round_eq]
  exact ⟨h, (c9_success_shape_amended 100 "percentage" ["A"] [("A", 100)]
    [⟨"A", 100⟩] h).1 rfl⟩

/-- C10: for the `percentage` and `exact` strategies the participants list
is only checked for non-emptiness: any successful output lists exactly the
detail keys, and replacing the users list by any other non-empty list
leaves the result unchanged. -/
theorem c10_details_determine_output (amount : ℚ) (users : List String)
    (d : List (String × ℚ)) (hpos : 0 < amount) (hu : users ≠ []) :
    (∀ splits, calculateSplits amount "percentage" users d = .ok splits →
      splits.map Split.user = d.map Prod.fst) ∧
    (∀ splits, calculateSplits amount "exact" users d = .ok splits →
      splits.map Split.user = d.map Prod.fst) ∧
    (∀ users', users' ≠ [] →
      calculateSplits amount "percentage" users d =
        calculateSplits amount "percentage" users' d ∧
      calculateSplits amount "exact" users d =
        calculateSplits amount "exact" users' d) := by
  refine ⟨?_, ?_, ?_⟩
  · intro splits h
    rw [calculateSplits, if_neg (not_le.mpr hpos), if_neg hu] at h
    have h' : calculatePercentageSplit amount d = .ok splits := h
    obtain ⟨hs, _⟩ := calculatePercentageSplit_inv h'
    subst hs
    rw [List.map_map]
    rfl
  · intro splits h
    rw [calculateSplits, if_neg (not_le.mpr hpos), if_neg hu] at h
    have h' : validateExactSplit amount d = .ok splits := h
    obtain ⟨hs, _⟩ := validateExactSplit_inv h'
    subst hs
    rw [List.map_map]
    rfl
  · intro users' hu'
    constructor <;>
      rw [calculateSplits, calculateSplits, if_neg (not_le.mpr hpos),
        if_neg (not_le.mpr hpos), if_neg hu, if_neg hu']

/-- C10 witness: with users `["A", "B"]` and details `{B: 100}`, the only
split goes to B (A receives none), and swapping the users list for `["Z"]`
changes nothing. -/
theorem c10_details_determine_output_witness :
    (0 : ℚ) < 10 ∧ (["A", "B"] : List String) ≠ [] ∧
    (∀ splits, calculateSplits 10 "percentage" ["A", "B"]
        [("B", 100)] = .ok splits →
      splits.map Split.user =
        ([("B", (100 : ℚ))] : List (String × ℚ)).map Prod.fst) ∧
    (∀ users', users' ≠ [] →
      calculateSplits 10 "percentage" ["A", "B"] [("B", 100)] =
        calculateSplits 10 "percentage" users' [("B", 100)] ∧
      calculateSplits 10 "exact" ["A", "B"] [("B", 100)] =
        calculateSplits 10 "exact" users' [("B", 100)]) := by
  have h := c10_details_determine_output 10 ["A", "B"] [("B", 100)]
    (by norm_num) (by simp)
  exact ⟨by norm_num, by simp, h.1, h.2.2⟩

end SplitBiller
